import Mathlib

/-!
Shallow embedding of the product-deduplication engine
(`src/product_dedup_improved.py`) and verification of its specification.

Python values that can occur in a product record are modelled by `Value`:
`vNone` is Python `None`, `vNaN` is a float NaN (the only float the claims
exercise; Python ints are unbounded so `Int` models them exactly), `vStr`
a string, and `vList` / `vTuple` / `vArr` model `list`, `tuple` and
`numpy.ndarray` (one-dimensional, as produced by parquet object columns).
A record (a row of the DataFrame, as produced by `to_dict("records")`)
is an insertion-ordered Python dict, modelled as an association list.

Python operations that can raise (`bool()` of a multi-element ndarray,
ordering comparisons between numbers and non-numbers) are modelled in
`Except String`.
-/

inductive Value where
  | vNone
  | vNaN
  | vInt (n : Int)
  | vStr (s : String)
  | vList (xs : List Value)
  | vTuple (xs : List Value)
  | vArr (xs : List Value)
deriving Repr

abbrev Record := List (String × Value)

namespace PyModel

open Value

mutual

/-- Structural boolean equality of embedded values. -/
def beqValue : Value → Value → Bool
  | vNone, vNone => true
  | vNaN, vNaN => true
  | vInt n, vInt m => n == m
  | vStr s, vStr t => s == t
  | vList xs, vList ys => beqValueList xs ys
  | vTuple xs, vTuple ys => beqValueList xs ys
  | vArr xs, vArr ys => beqValueList xs ys
  | _, _ => false

def beqValueList : List Value → List Value → Bool
  | [], [] => true
  | x :: xs, y :: ys => beqValue x y && beqValueList xs ys
  | _, _ => false

end

mutual

theorem beqValue_iff : ∀ x y, beqValue x y = true ↔ x = y
  | vNone, y => by cases y <;> simp [beqValue]
  | vNaN, y => by cases y <;> simp [beqValue]
  | vInt n, y => by cases y <;> simp [beqValue]
  | vStr s, y => by cases y <;> simp [beqValue]
  | vList xs, y => by
      cases y <;> simp [beqValue]
      exact beqValueList_iff xs _
  | vTuple xs, y => by
      cases y <;> simp [beqValue]
      exact beqValueList_iff xs _
  | vArr xs, y => by
      cases y <;> simp [beqValue]
      exact beqValueList_iff xs _

theorem beqValueList_iff : ∀ xs ys, beqValueList xs ys = true ↔ xs = ys
  | [], ys => by cases ys <;> simp [beqValueList]
  | x :: xs, ys => by
      cases ys with
      | nil => simp [beqValueList]
      | cons y ys =>
          simp [beqValueList, beqValue_iff x y, beqValueList_iff xs ys]

end

instance : DecidableEq Value := fun x y =>
  decidable_of_iff (beqValue x y = true) (beqValue_iff x y)

mutual

/-- Python `repr` of a value, to the extent the engine observes it
(only through `str` of containers); strings are quoted. -/
def pyRepr : Value → String
  | vNone => "None"
  | vNaN => "nan"
  | vInt n => toString n
  | vStr s => "\x27" ++ s ++ "\x27"
  | vList xs => "[" ++ ", ".intercalate (pyReprList xs) ++ "]"
  | vTuple [x] => "(" ++ pyRepr x ++ ",)"
  | vTuple xs => "(" ++ ", ".intercalate (pyReprList xs) ++ ")"
  | vArr xs => "[" ++ " ".intercalate (pyReprList xs) ++ "]"

def pyReprList : List Value → List String
  | [] => []
  | x :: xs => pyRepr x :: pyReprList xs

end

/-- Python `str` of a value: like `repr` except that a string is itself. -/
def pyStr : Value → String
  | vStr s => s
  | v => pyRepr v

/-- Python truthiness, `bool(v)`.  `bool()` of a multi-element numpy array
raises `ValueError`; a one-element array delegates to its element. -/
def pyTruthy : Value → Except String Bool
  | vNone => pure false
  | vNaN => pure true
  | vInt n => pure (decide (n ≠ 0))
  | vStr s => pure (decide (s ≠ ""))
  | vList xs => pure (!xs.isEmpty)
  | vTuple xs => pure (!xs.isEmpty)
  | vArr [] => pure false
  | vArr [x] => pyTruthy x
  | vArr _ => throw "ValueError: truth value of multi-element array is ambiguous"

/-- Strip nested one-element numpy arrays: comparing `np.array([v])` behaves
like comparing `v` (elementwise comparison followed by `bool()` of the
resulting one-element array). -/
def unArr : Value → Value
  | vArr [x] => unArr x
  | v => v

theorem sizeOf_unArr_le : ∀ v : Value, sizeOf (unArr v) ≤ sizeOf v
  | vNone | vNaN | vInt _ | vStr _ | vList _ | vTuple _ => le_refl _
  | vArr [] => le_refl _
  | vArr [x] => by
      have h := sizeOf_unArr_le x
      simp only [unArr]
      simp only [Value.vArr.sizeOf_spec, List.cons.sizeOf_spec, List.nil.sizeOf_spec]
      omega
  | vArr (_ :: _ :: _) => le_refl _

mutual

/-- Python `==` on (singleton-array-stripped) values, as consulted by
`are_similar` on identifier values.  NaN compares unequal to everything,
including itself; comparing a multi-element numpy array produces an array,
whose implicit `bool()` in an `if` raises `ValueError`. -/
def pyEqCore : Value → Value → Except String Bool
  | vArr _, _ => throw "ValueError: truth value of multi-element array is ambiguous"
  | _, vArr _ => throw "ValueError: truth value of multi-element array is ambiguous"
  | vNaN, _ => pure false
  | _, vNaN => pure false
  | vNone, vNone => pure true
  | vInt n, vInt m => pure (n == m)
  | vStr s, vStr t => pure (s == t)
  | vList xs, vList ys =>
      if xs.length = ys.length then pyEqListGo xs ys else pure false
  | vTuple xs, vTuple ys =>
      if xs.length = ys.length then pyEqListGo xs ys else pure false
  | _, _ => pure false
termination_by x y => sizeOf x + sizeOf y
decreasing_by all_goals simp_wf; omega

def pyEqListGo : List Value → List Value → Except String Bool
  | [], _ => pure true
  | _ :: _, [] => pure true
  | x :: xs, y :: ys => do
      let b ← pyEqCore (unArr x) (unArr y)
      if b then pyEqListGo xs ys else pure false
termination_by xs ys => sizeOf xs + sizeOf ys
decreasing_by
  all_goals simp_wf
  · have h1 := sizeOf_unArr_le x
    have h2 := sizeOf_unArr_le y
    omega
  · omega

end

/-- Python `==` on identifier values (`id1 == id2` in `are_similar`). -/
def pyEq (x y : Value) : Except String Bool := pyEqCore (unArr x) (unArr y)

end PyModel

namespace ProductDedup

open Value PyModel

/-- The skip test of the merge loop,
`v is None or (isinstance(v, (float, int)) and pd.isna(v))`:
true exactly for `None` and for a float NaN. -/
def skipVal : Value → Bool
  | vNone => true
  | vNaN => true
  | _ => false

/-- Cell-level `pd.isna` / `notna`, used to split rows on the normalized
identifier column: null values are `None` and NaN. -/
def isNaVal (v : Value) : Bool := skipVal v

/-- First value stored under key `k` (`dict` lookup; record keys are unique
in every record produced by `to_dict("records")`). -/
def rGet (r : Record) (k : String) : Option Value :=
  (r.find? (fun kv => kv.1 == k)).map (fun kv => kv.2)

/-- Python dict assignment `r[k] = v`: replaces the (unique) existing entry in
place — Python dicts keep the original insertion position on update — and
appends a new entry at the end otherwise. -/
def rSet : Record → String → Value → Record
  | [], k, v => [(k, v)]
  | kv :: rest, k, v =>
      if kv.1 == k then (k, v) :: rest else kv :: rSet rest k v

def nodupKeys (r : Record) : Prop := (r.map Prod.fst).Nodup

instance (r : Record) : Decidable (nodupKeys r) := List.nodupDecidable _

/-- The characters removed by `clean_text`:
`"\n\r\t"` and the fixed punctuation set. -/
def removedChars : List Char :=
  '\n' :: '\r' :: '\t' :: "!\"#$%&\x27()*+,./:;<=>?@[\\]^`\x7b|\x7d~".toList

/-- Whitespace that `str.split()` still splits on after `\n\r\t` have been
removed. -/
def wsChars : List Char := [' ', '\x0b', '\x0c']

def splitWordsAux : List Char → List Char → List (List Char)
  | acc, [] => if acc.isEmpty then [] else [acc.reverse]
  | acc, c :: cs =>
      if wsChars.contains c then
        if acc.isEmpty then splitWordsAux [] cs
        else acc.reverse :: splitWordsAux [] cs
      else splitWordsAux (c :: acc) cs

/-- Python `str.split()`: split on whitespace runs, dropping empty pieces. -/
def splitWords (cs : List Char) : List (List Char) := splitWordsAux [] cs

/-- Python `" ".join(words)`. -/
def joinWords : List (List Char) → List Char
  | [] => []
  | [w] => w
  | w :: ws => w ++ ' ' :: joinWords ws

/-- The `clean_text` character-list core: non-strings clean to the empty string;
strings are lower-cased (codepoint-wise), stripped of `removedChars`, and
whitespace-normalized. -/
def cleanTextL (v : Value) : List Char :=
  match v with
  | vStr s =>
      joinWords (splitWords
        ((s.toList.map Char.toLower).filter (fun c => !removedChars.contains c)))
  | _ => []

/-- Source function `clean_text(text)`. -/
def clean_text (v : Value) : String := String.mk (cleanTextL v)

/-- Source function `normalize_id(val)`: numpy arrays of size one collapse to their element,
other arrays and all lists become tuples; `None`/NaN become `None`; tuples
fall through to `pd.isna(val)`, which is elementwise on a tuple, so its
implicit `bool()` raises unless the tuple has exactly one element. -/
def normalize_id : Value → Except String Value
  | vArr [x] => pure x
  | vArr xs => pure (vTuple xs)
  | vList xs => pure (vTuple xs)
  | vNone => pure vNone
  | vNaN => pure vNone
  | vTuple [x] => pure (if skipVal x then vNone else vTuple [x])
  | vTuple _ => throw "ValueError: truth value of multi-element array is ambiguous"
  | v => pure v

/-- The title value selected by `blocking_key`:
`record.get("product_title", "") or record.get("product_name", "")`. -/
def titleOrName (r : Record) : Except String Value := do
  let tv := (rGet r "product_title").getD (vStr "")
  let b ← pyTruthy tv
  pure (if b then tv else (rGet r "product_name").getD (vStr ""))

/-- Source function `blocking_key(record)`: cleaned brand, a pipe, and the first ten
characters of the cleaned title. -/
def blocking_key (r : Record) : Except String String := do
  let tn ← titleOrName r
  pure (String.mk
    (cleanTextL ((rGet r "brand").getD (vStr "")) ++ '|' :: (cleanTextL tn).take 10))

def NAME_FIELDS : List String := ["product_title", "product_name", "name", "title"]

/-- The identifier gate of `are_similar`: `id1 and id2 and id1 == id2`,
with Python short-circuit evaluation. -/
def idMatch (a b : Record) : Except String Bool := do
  let id1 := (rGet a "product_identifier").getD vNone
  let id2 := (rGet b "product_identifier").getD vNone
  let t1 ← pyTruthy id1
  if t1 then
    let t2 ← pyTruthy id2
    if t2 then pyEq id1 id2 else pure false
  else pure false

/-- The name-field loop of `are_similar`.  `sim` models the external
`fuzz.token_set_ratio` collaborator (a 0-100 similarity score). -/
def nameLoop (sim : String → String → ℚ) (a b : Record) (t : Int) :
    List String → Except String Bool
  | [] => pure false
  | f :: rest => do
      let n1 := (rGet a f).getD vNone
      let n2 := (rGet b f).getD vNone
      let p1 ← pyTruthy n1
      let p2 ← if p1 then pyTruthy n2 else pure false
      if p1 && p2 then
        pure (decide ((t : ℚ) ≤ sim (clean_text n1) (clean_text n2)))
      else nameLoop sim a b t rest

/-- Source function `are_similar(a, b, thresh)`. -/
def are_similar (sim : String → String → ℚ) (a b : Record) (t : Int) :
    Except String Bool := do
  let c ← idMatch a b
  if c then pure true else nameLoop sim a b t NAME_FIELDS

/-- A trivially symmetric similarity score, used to instantiate theorems
that hold for every score function. -/
def simZero : String → String → ℚ := fun _ _ => 0

/-- Python `isinstance(v, (list, tuple, np.ndarray))`. -/
def isListLike : Value → Bool
  | vList _ => true
  | vTuple _ => true
  | vArr _ => true
  | _ => false

/-- Membership in the `list_fields` set of `merge_records`: some input
record holds a sequence-typed value under `k`. -/
def isListField (records : List Record) (k : String) : Bool :=
  records.any (fun rec => rec.any (fun kv => kv.1 == k && isListLike kv.2))

/-- The items a value contributes to a list field:
`v.tolist()` for arrays, `list(v)` for lists and tuples, else `[v]`. -/
def pyItems (v : Value) : List Value :=
  match v with
  | vArr xs => xs
  | vList xs => xs
  | vTuple xs => xs
  | _ => [v]

/-- Conflict resolution for a non-list field that already holds `old` and is
offered `v`: a string replaces when strictly longer than `str(old)`; a
number replaces when greater than `old or float(-inf)` — so any number
replaces a falsy stored value (`0`, `""`), and comparing a number against a
truthy non-number raises `TypeError`.  Other values never replace. -/
def mergeScalar (old v : Value) : Except String Value :=
  match v with
  | vStr s => pure (if s.length > (pyStr old).length then vStr s else old)
  | vInt n => do
      let t ← pyTruthy old
      if t then
        match old with
        | vInt m => pure (if n > m then vInt n else old)
        | vNaN => pure old
        | _ => throw "TypeError: unorderable types"
      else pure (vInt n)
  | vNaN => do
      let t ← pyTruthy old
      if t then
        match old with
        | vInt _ => pure old
        | vNaN => pure old
        | _ => throw "TypeError: unorderable types"
      else pure old
  | _ => pure old

/-- The list the merged dict currently holds at a list-field key
(`merged.setdefault(k, [])`). -/
def curElems : Option Value → List Value
  | some (vList ys) => ys
  | _ => []

/-- One iteration of the merge loop body for the item `(k, v)`. -/
def mergeStep (lf : String → Bool) (merged : Record) (kv : String × Value) :
    Except String Record :=
  if skipVal kv.2 then pure merged
  else if lf kv.1 then
    pure (rSet merged kv.1 (vList (curElems (rGet merged kv.1) ++ pyItems kv.2)))
  else
    match rGet merged kv.1 with
    | none => pure (rSet merged kv.1 kv.2)
    | some old => do
        let w ← mergeScalar old kv.2
        pure (rSet merged kv.1 w)

/-- List-field deduplication: keep the first element for each distinct
`md5(str(x))` fingerprint; the fingerprint is modelled by `str(x)` itself
(the spec notes the exact hash is not load-bearing). -/
def dedupByStrAux (seen : List String) : List Value → List Value
  | [] => []
  | x :: xs =>
      if seen.contains (pyStr x) then dedupByStrAux seen xs
      else x :: dedupByStrAux (pyStr x :: seen) xs

def dedupByStr (xs : List Value) : List Value := dedupByStrAux [] xs

def dedupField : Value → Value
  | vList xs => vList (dedupByStr xs)
  | v => v

/-- Source function `merge_records(records)`: the double loop over `rec.items()` is the fold
of `mergeStep` over the concatenated item lists; the final pass rewrites
every list field in place to its deduplicated value (the iteration order of
the `list_fields` set is immaterial because each key is rewritten
independently). -/
def merge_records (records : List Record) : Except String Record := do
  let lf := fun k => isListField records k
  let m ← records.flatten.foldlM (mergeStep lf) []
  pure (m.map (fun kv => if lf kv.1 then (kv.1, dedupField kv.2) else kv))

/-- One pass of `process_block`'s inner loop: split the remaining records
into those similar to the seed (the cluster tail) and the rest. -/
def splitSimilar (sim : String → String → ℚ) (t : Int) (seed : Record) :
    List Record → Except String (List Record × List Record)
  | [] => pure ([], [])
  | r :: rs => do
      let b ← are_similar sim seed r t
      let (cl, rem) ← splitSimilar sim t seed rs
      pure (if b then (r :: cl, rem) else (cl, r :: rem))

/-- In the `Except String` monad, `pure` is `ok`. -/
theorem pure_ok {α : Type} (a : α) : (pure a : Except String α) = .ok a := rfl

theorem ok_bind {α β : Type} (a : α) (f : α → Except String β) :
    (Except.ok a : Except String α) >>= f = f a := rfl

theorem error_bind {α β : Type} (e : String) (f : α → Except String β) :
    (Except.error e : Except String α) >>= f = .error e := rfl

/-- Inversion for a successful `Except` bind. -/
theorem except_bind_ok {α β : Type} {x : Except String α} {f : α → Except String β}
    {b : β} (h : x >>= f = .ok b) : ∃ a, x = .ok a ∧ f a = .ok b := by
  cases x with
  | error e => simp [Bind.bind, Except.bind] at h
  | ok a => exact ⟨a, rfl, by simpa [Bind.bind, Except.bind] using h⟩

theorem except_ok_inj {α : Type} {a b : α}
    (h : (Except.ok a : Except String α) = .ok b) : a = b := by
  cases h; rfl

theorem splitSimilar_length {sim : String → String → ℚ} {t : Int} {seed : Record} :
    ∀ {l cl rem}, splitSimilar sim t seed l = .ok (cl, rem) →
      cl.length + rem.length = l.length := by
  intro l
  induction l with
  | nil =>
      intro cl rem h
      simp only [splitSimilar, pure, Except.pure] at h
      cases h
      simp
  | cons r rs ih =>
      intro cl rem h
      simp only [splitSimilar] at h
      obtain ⟨b, hb, h⟩ := except_bind_ok h
      obtain ⟨⟨cl', rem'⟩, hs, h⟩ := except_bind_ok h
      have hlen := ih hs
      simp only [pure, Except.pure] at h
      cases b <;> cases h <;> simp <;> omega

/-- The while loop of `process_block`: `rem.pop()` removes the last record
as the seed. -/
def processClusters (sim : String → String → ℚ) (t : Int) :
    List Record → Except String (List (List Record))
  | [] => pure []
  | r :: rs =>
      let seed := (r :: rs).getLast (by simp)
      let rest := (r :: rs).dropLast
      match h : splitSimilar sim t seed rest with
      | .error e => throw e
      | .ok (cl, newRem) => do
          let tail ← processClusters sim t newRem
          pure ((seed :: cl) :: tail)
termination_by l => l.length
decreasing_by
  simp_wf
  have h1 := splitSimilar_length h
  have h2 : rest.length = (r :: rs).length - 1 := by
    simp [rest, List.length_dropLast]
  simp at h2
  omega

/-- Source function `process_block(block, thresh)`: cluster, then merge every cluster. -/
def process_block (sim : String → String → ℚ) (block : List Record) (t : Int) :
    Except String (List Record) := do
  let cs ← processClusters sim t block
  cs.mapM merge_records

/-- The value of the `product_identifier` cell of a row (a missing field of
a DataFrame row reads as null). -/
def recId (r : Record) : Value := (rGet r "product_identifier").getD vNone

/-- The column assignment
`df["product_identifier"] = df["product_identifier"].apply(normalize_id)`
for one row; a row without the field holds NaN in the DataFrame column. -/
def normRec (r : Record) : Except String Record := do
  let nid ← normalize_id ((rGet r "product_identifier").getD vNaN)
  pure (rSet r "product_identifier" nid)

/-- The distinct normalized identifiers of a chunk, in first-seen order
(pandas `groupby` sorts its group keys, but the set of groups — all that the
claims depend on — is the same). -/
def distinctIds (rs : List Record) : List Value :=
  rs.foldl (fun acc r => if acc.contains (recId r) then acc else acc ++ [recId r]) []

/-- The grouping `has_id.groupby("product_identifier")`: one group per distinct
identifier, holding every row with that identifier, in row order. -/
def idGroups (rs : List Record) : List (Value × List Record) :=
  (distinctIds rs).map (fun v => (v, rs.filter (fun r => recId r == v)))

/-- Does this record map to blocking key `k`? -/
def bkIs (r : Record) (k : String) : Bool :=
  match blocking_key r with
  | .ok k2 => k2 == k
  | .error _ => false

/-- Distinct blocking keys in first-seen order (`defaultdict` insertion
order). -/
def distinctKeys (ks : List String) : List String :=
  ks.foldl (fun acc k => if acc.contains k then acc else acc ++ [k]) []

/-- One chunk of the `dedupe` driver: normalize identifiers, split on
identifier presence, merge exact-identifier groups, then bucket the
remaining rows by blocking key and run `process_block` on every bucket
(`joblib.Parallel` preserves the order of its inputs). -/
def processChunk (sim : String → String → ℚ) (t : Int) (df : List Record) :
    Except String (List Record) := do
  let ndf ← df.mapM normRec
  let hasId := ndf.filter (fun r => !isNaVal (recId r))
  let noId := ndf.filter (fun r => isNaVal (recId r))
  let exact ← (idGroups hasId).mapM (fun g => merge_records g.2)
  let ks ← noId.mapM blocking_key
  let buckets := (distinctKeys ks).map (fun k => noId.filter (fun r => bkIs r k))
  let fuzzy ← buckets.mapM (fun b => process_block sim b t)
  pure (exact ++ fuzzy.flatten)

/-- The `dedupe` driver over its chunked record source.  Reading and
writing parquet are external collaborators; the final
identifier-serialization pass (tuple identifiers to JSON strings, applied
per record just before writing) rewrites records one-to-one and is omitted
here — the claims about the driver concern the merged record set. -/
def dedupe (sim : String → String → ℚ) (t : Int) (chunks : List (List Record)) :
    Except String (List Record) := do
  let parts ← chunks.mapM (processChunk sim t)
  pure parts.flatten

/-- The effect of one merge-loop iteration on the value stored under a
single key: the per-key projection of `mergeStep`. -/
def keyStep (isLf : Bool) (cur : Option Value) (v : Value) :
    Except String (Option Value) :=
  if skipVal v then pure cur
  else if isLf then pure (some (vList (curElems cur ++ pyItems v)))
  else match cur with
    | none => pure (some v)
    | some old => (mergeScalar old v).map some

/-- The values the input records contribute under key `k`, in record
order. -/
def fieldVals (rs : List Record) (k : String) : List Value :=
  rs.filterMap (fun r => rGet r k)

/-- The first string of maximal length in a list: the value the merge's
"strictly longer string replaces" policy converges to. -/
def firstLongest : List String → String
  | [] => ""
  | s :: rest =>
      if (firstLongest rest).length > s.length then firstLongest rest else s

/-- Truthiness `pyTruthy`, collapsed to `false` on error; used only to state
specification-side conditions about field availability. -/
def truthyOk (v : Value) : Bool :=
  match pyTruthy v with
  | .ok b => b
  | .error _ => false

/-- Modelled from the spec: both records have a non-empty (truthy) value for
the name field `f`. -/
def specAvailPair (a b : Record) (f : String) : Bool :=
  truthyOk ((rGet a f).getD vNone) && truthyOk ((rGet b f).getD vNone)

/-- Modelled from the spec: the first field in the priority order
`NAME_FIELDS` at which both records have a non-empty value. -/
def specFirstAvail (a b : Record) : Option String :=
  NAME_FIELDS.find? (specAvailPair a b)

/-- Scalar (non-sequence) values: the identifiers for which "one output
record carries this identifier" is the faithful reading of the
exact-identifier invariant (tuple identifiers are rewritten to lists by the
merger). -/
def isScalarLike : Value → Bool
  | vInt _ => true
  | vStr _ => true
  | _ => false

/-- How many output records carry the identifier `v`. -/
def outCountId (rs : List Record) (v : Value) : Nat :=
  (rs.filter (fun r => decide ((rGet r "product_identifier").getD vNone = v))).length

/-! ### Heap model of `merge_records`

To state the frame property "merging never mutates an input record", the
merge is re-embedded with Python's object identity made explicit: a list
value is a reference into a heap of mutable list objects, every other value
is immutable (tuples and numpy arrays are only ever read by the merge, so
they are carried immutably).  Elements of lists are carried as plain
values — the merge never mutates an element, only the spines of the lists
it allocated itself (`merged.setdefault(k, [])`, `merged[k].extend(...)`,
and the fresh `uniq` list of the dedup pass). -/

/-- A value held by a record in the heap model. -/
inductive HVal where
  | imm (v : Value)
  | ref (a : Nat)
deriving Repr, DecidableEq

abbrev Heap := List (List Value)

abbrev HRecord := List (String × HVal)

/-- Python `isinstance(v, (list, tuple, np.ndarray))` in the heap model: a
reference is a Python list. -/
def isListLikeH : HVal → Bool
  | .ref _ => true
  | .imm (vTuple _) => true
  | .imm (vArr _) => true
  | _ => false

/-- The skip test `v is None or (isinstance(v, (float, int)) and pd.isna(v))`. -/
def skipValH : HVal → Bool
  | .imm v => skipVal v
  | .ref _ => false

def isListFieldH (records : List HRecord) (k : String) : Bool :=
  records.any (fun rec => rec.any (fun kv => kv.1 == k && isListLikeH kv.2))

def hGet (r : HRecord) (k : String) : Option HVal :=
  (r.find? (fun kv => kv.1 == k)).map (fun kv => kv.2)

def hSet : HRecord → String → HVal → HRecord
  | [], k, v => [(k, v)]
  | kv :: rest, k, v =>
      if kv.1 == k then (k, v) :: rest else kv :: hSet rest k v

/-- Dereference a heap address. -/
def heapGet (h : Heap) (a : Nat) : Except String (List Value) :=
  match h.get? a with
  | some xs => pure xs
  | none => throw "dangling reference"

/-- The elements a value contributes to a list field:
`v.tolist()` for arrays, `list(v)` for lists (read through the heap) and
tuples, else `[v]`. -/
def pyItemsH (h : Heap) : HVal → Except String (List Value)
  | .ref a => heapGet h a
  | .imm (vTuple xs) => pure xs
  | .imm (vArr xs) => pure xs
  | .imm v => pure [v]

/-- Scalar conflict resolution on immutable values; a reference can never
reach a non-list field because any record holding a list under `k` puts `k`
into `list_fields`. -/
def mergeScalarH (old v : HVal) : Except String HVal :=
  match old, v with
  | .imm o, .imm w => (mergeScalar o w).map HVal.imm
  | _, _ => throw "unreachable: list object at a non-list field"

/-- One iteration of the merge loop in the heap model.  For a list field,
`merged.setdefault(k, [])` allocates a fresh empty list at the end of the
heap when `k` is absent, and `merged[k].extend(items)` mutates only that
cell. -/
def mergeStepH (lf : String → Bool) :
    HRecord × Heap → String × HVal → Except String (HRecord × Heap)
  | (merged, heap), kv =>
      if skipValH kv.2 then pure (merged, heap)
      else if lf kv.1 then do
        let s ←
          match hGet merged kv.1 with
          | some (.ref a) => pure (a, merged, heap)
          | some (.imm _) => throw "unreachable: non-list stored at a list field"
          | none => pure (heap.length,
              hSet merged kv.1 (.ref heap.length), heap ++ [[]])
        let items ← pyItemsH s.2.2 kv.2
        let old ← heapGet s.2.2 s.1
        pure (s.2.1, s.2.2.set s.1 (old ++ items))
      else
        match hGet merged kv.1 with
        | none => pure (hSet merged kv.1 kv.2, heap)
        | some old => do
            let w ← mergeScalarH old kv.2
            pure (hSet merged kv.1 w, heap)

/-- The deduplication pass over the merged record: every list field is
re-bound to a freshly allocated list holding the deduplicated elements
(`uniq` in the source); the old cell is never mutated. -/
def dedupPassH (lf : String → Bool) : HRecord → Heap → Except String (HRecord × Heap)
  | [], heap => pure ([], heap)
  | kv :: rest, heap =>
      if lf kv.1 then
        match kv.2 with
        | .ref a => do
            let xs ← heapGet heap a
            let s ← dedupPassH lf rest (heap ++ [dedupByStr xs])
            pure ((kv.1, HVal.ref heap.length) :: s.1, s.2)
        | .imm _ => throw "unreachable: non-list stored at a list field"
      else do
        let s ← dedupPassH lf rest heap
        pure (kv :: s.1, s.2)

/-- Source function `merge_records` in the heap model. -/
def merge_recordsH (records : List HRecord) (heap : Heap) :
    Except String (HRecord × Heap) := do
  let lf := fun k => isListFieldH records k
  let s ← records.flatten.foldlM (mergeStepH lf) ([], heap)
  dedupPassH lf s.1 s.2

end ProductDedup

open Value PyModel ProductDedup

/-- C2, counterexample: `normalize_id` maps the one-element list `[7]` to the
one-element tuple `(7,)`, not to the scalar `7` the claim requires. -/
theorem C2_counterexample :
    normalize_id (vList [vInt 7]) = .ok (vTuple [vInt 7]) ∧
      vTuple [vInt 7] ≠ vInt 7 :=
  ⟨rfl, by decide⟩

/-- C2, amended: a list of any length becomes the tuple of its elements (so
`normalize_id([7]) == (7,)`); a one-element numpy array becomes its element
and any other numpy array becomes a tuple; null and NaN become null; scalar
values pass through unchanged. -/
theorem C2_amended_thm :
    (∀ xs : List Value, normalize_id (vList xs) = .ok (vTuple xs))
    ∧ (∀ x : Value, normalize_id (vArr [x]) = .ok x)
    ∧ (∀ xs : List Value, xs.length ≠ 1 → normalize_id (vArr xs) = .ok (vTuple xs))
    ∧ normalize_id vNone = .ok vNone
    ∧ normalize_id vNaN = .ok vNone
    ∧ (∀ n : Int, normalize_id (vInt n) = .ok (vInt n))
    ∧ (∀ s : String, normalize_id (vStr s) = .ok (vStr s)) := by
  refine ⟨fun xs => rfl, fun x => rfl, ?_, rfl, rfl, fun n => rfl, fun s => rfl⟩
  intro xs h
  match xs with
  | [] => rfl
  | [x] => exact absurd rfl h
  | x :: y :: zs => rfl

/-- C2, witness: the amended theorem applied to the two-element array. -/
theorem C2_witness :
    normalize_id (vArr [vInt 1, vInt 2]) = .ok (vTuple [vInt 1, vInt 2]) :=
  C2_amended_thm.2.2.1 [vInt 1, vInt 2] (by decide)

/-- C3, counterexample: both records carry the identifier `0` — non-null,
equal under Python `==`, and its own normalized form — yet `are_similar`
returns `False` because the identifier gate tests truthiness, and `0` is
falsy. -/
theorem C3_counterexample :
    rGet [("product_identifier", vInt 0)] "product_identifier" = some (vInt 0)
    ∧ normalize_id (vInt 0) = .ok (vInt 0)
    ∧ vInt 0 ≠ vNone
    ∧ pyEq (vInt 0) (vInt 0) = .ok true
    ∧ are_similar simZero [("product_identifier", vInt 0)]
        [("product_identifier", vInt 0)] 90 = .ok false :=
  ⟨rfl, rfl, by decide, by simp [pyEq, unArr, pyEqCore, pure_ok], rfl⟩

/-- C3, amended: when both records hold truthy (non-null, non-zero,
non-empty) identifiers that compare equal under Python `==`, `are_similar`
returns true immediately, for every similarity score function, every
threshold, and regardless of any name field. -/
theorem C3_amended_thm (sim : String → String → ℚ) (a b : Record) (t : Int)
    (id1 id2 : Value)
    (h1 : rGet a "product_identifier" = some id1)
    (h2 : rGet b "product_identifier" = some id2)
    (h3 : pyTruthy id1 = .ok true)
    (h4 : pyTruthy id2 = .ok true)
    (h5 : pyEq id1 id2 = .ok true) :
    are_similar sim a b t = .ok true := by
  simp only [are_similar, idMatch, h1, h2, Option.getD_some, h3, h4, h5,
    ok_bind, if_true, pure_ok]

/-- C3, witness: two records sharing the truthy identifier `7`. -/
theorem C3_witness :
    are_similar simZero [("product_identifier", vInt 7)]
      [("product_identifier", vInt 7)] 90 = .ok true :=
  C3_amended_thm simZero _ _ 90 (vInt 7) (vInt 7) rfl rfl rfl rfl
    (by simp [pyEq, unArr, pyEqCore, pure_ok])

theorem beq_swap {α : Type} [BEq α] [LawfulBEq α] (a b : α) : (a == b) = (b == a) := by
  by_cases h : a = b
  · subst h; rfl
  · have h2 : ¬b = a := fun hh => h hh.symm
    simp [beq_iff_eq, h, h2]

mutual

theorem pyEqCore_comm : ∀ (x y : Value), pyEqCore x y = pyEqCore y x
  | x, y => by
      cases x <;> cases y <;> simp only [pyEqCore]
      case vInt.vInt n m => rw [beq_swap n m]
      case vStr.vStr s u => rw [beq_swap s u]
      case vList.vList xs ys =>
        by_cases h : xs.length = ys.length
        · rw [if_pos h, if_pos h.symm, pyEqListGo_comm xs ys]
        · rw [if_neg h, if_neg (fun hh => h hh.symm)]
      case vTuple.vTuple xs ys =>
        by_cases h : xs.length = ys.length
        · rw [if_pos h, if_pos h.symm, pyEqListGo_comm xs ys]
        · rw [if_neg h, if_neg (fun hh => h hh.symm)]
termination_by x y => sizeOf x + sizeOf y

theorem pyEqListGo_comm : ∀ (xs ys : List Value), pyEqListGo xs ys = pyEqListGo ys xs
  | [], [] => rfl
  | [], _ :: _ => by simp only [pyEqListGo]
  | _ :: _, [] => by simp only [pyEqListGo]
  | x :: xs, y :: ys => by
      simp only [pyEqListGo]
      rw [pyEqCore_comm (unArr x) (unArr y), pyEqListGo_comm xs ys]
termination_by xs ys => sizeOf xs + sizeOf ys
decreasing_by
  all_goals simp_wf
  · have h1 := sizeOf_unArr_le x
    have h2 := sizeOf_unArr_le y
    omega
  · omega

end

/-- Python `==` is symmetric on embedded values (errors included). -/
theorem pyEq_comm (x y : Value) : pyEq x y = pyEq y x :=
  pyEqCore_comm (unArr x) (unArr y)

/-- When the identifier gate evaluates without error in both orientations,
it yields the same decision. -/
theorem idMatch_swap {a b : Record} {ca cb : Bool}
    (hab : idMatch a b = .ok ca) (hba : idMatch b a = .ok cb) : ca = cb := by
  simp only [idMatch] at hab hba
  obtain ⟨t1, ht1, hab⟩ := except_bind_ok hab
  obtain ⟨u1, hu1, hba⟩ := except_bind_ok hba
  cases t1 with
  | false =>
      simp only [if_false, Bool.false_eq_true, pure_ok] at hab
      cases hab
      cases u1 with
      | false =>
          simp only [if_false, Bool.false_eq_true, pure_ok] at hba
          cases hba
          rfl
      | true =>
          simp only [if_true] at hba
          obtain ⟨u2, hu2, hba⟩ := except_bind_ok hba
          rw [ht1] at hu2
          cases hu2
          simp only [if_false, Bool.false_eq_true, pure_ok] at hba
          cases hba
          rfl
  | true =>
      simp only [if_true] at hab
      obtain ⟨t2, ht2, hab⟩ := except_bind_ok hab
      cases t2 with
      | false =>
          simp only [if_false, Bool.false_eq_true, pure_ok] at hab
          cases hab
          rw [ht2] at hu1
          cases hu1
          simp only [if_false, Bool.false_eq_true, pure_ok] at hba
          cases hba
          rfl
      | true =>
          simp only [if_true] at hab
          rw [ht2] at hu1
          cases hu1
          simp only [if_true] at hba
          obtain ⟨u2, hu2, hba⟩ := except_bind_ok hba
          rw [ht1] at hu2
          cases hu2
          simp only [if_true] at hba
          rw [pyEq_comm] at hba
          rw [hab] at hba
          exact except_ok_inj hba

/-- When the name-field loop evaluates without error in both orientations
and the score function is symmetric, it yields the same decision. -/
theorem nameLoop_swap {sim : String → String → ℚ} {a b : Record} {t : Int}
    (hsym : ∀ s1 s2, sim s1 s2 = sim s2 s1) :
    ∀ fs {ra rb}, nameLoop sim a b t fs = .ok ra →
      nameLoop sim b a t fs = .ok rb → ra = rb := by
  intro fs
  induction fs with
  | nil =>
      intro ra rb hab hba
      simp only [nameLoop, pure_ok] at hab hba
      cases hab; cases hba; rfl
  | cons f rest ih =>
      intro ra rb hab hba
      simp only [nameLoop] at hab hba
      obtain ⟨p1, hp1, hab⟩ := except_bind_ok hab
      obtain ⟨q1, hq1, hba⟩ := except_bind_ok hba
      cases p1 with
      | false =>
          simp only [Bool.false_eq_true, if_false, ok_bind, Bool.false_and,
            pure_ok] at hab
          cases q1 with
          | false =>
              simp only [Bool.false_eq_true, if_false, ok_bind, Bool.false_and,
                pure_ok] at hba
              exact ih hab hba
          | true =>
              simp only [if_true] at hba
              obtain ⟨q2, hq2, hba⟩ := except_bind_ok hba
              rw [hp1] at hq2
              cases hq2
              simp only [Bool.and_false, if_false, Bool.false_eq_true] at hba
              exact ih hab hba
      | true =>
          simp only [if_true] at hab
          obtain ⟨p2, hp2, hab⟩ := except_bind_ok hab
          cases p2 with
          | false =>
              simp only [Bool.and_false, if_false, Bool.false_eq_true] at hab
              rw [hp2] at hq1
              cases hq1
              simp only [Bool.false_eq_true, if_false, ok_bind, Bool.false_and,
                pure_ok] at hba
              exact ih hab hba
          | true =>
              simp only [Bool.and_true, if_true, pure_ok] at hab
              cases hab
              rw [hp2] at hq1
              cases hq1
              simp only [if_true] at hba
              obtain ⟨q2, hq2, hba⟩ := except_bind_ok hba
              rw [hp1] at hq2
              cases hq2
              simp only [Bool.and_true, if_true, pure_ok] at hba
              cases hba
              rw [hsym]

/-- C10, counterexample: with a multi-element numpy array stored under
`product_identifier`, one orientation raises `ValueError` while the other
returns `False` — `are_similar(a, b, t)` and `are_similar(b, a, t)` are not
equal for every pair of records. -/
theorem C10_counterexample :
    are_similar simZero [("product_identifier", vArr [vInt 1, vInt 2])] [] 90 =
      .error "ValueError: truth value of multi-element array is ambiguous"
    ∧ are_similar simZero [] [("product_identifier", vArr [vInt 1, vInt 2])] 90 =
      .ok false :=
  ⟨rfl, rfl⟩

/-- C10, amended: for every symmetric similarity score, `are_similar` is
symmetric on every pair of records for which both orientations evaluate
without raising (multi-element numpy arrays in consulted fields are the only
source of errors). -/
theorem C10_amended_thm (sim : String → String → ℚ) (a b : Record) (t : Int)
    (ra rb : Bool) (hsym : ∀ s1 s2, sim s1 s2 = sim s2 s1)
    (hab : are_similar sim a b t = .ok ra)
    (hba : are_similar sim b a t = .ok rb) : ra = rb := by
  simp only [are_similar] at hab hba
  obtain ⟨c, hc, hab⟩ := except_bind_ok hab
  obtain ⟨c', hc', hba⟩ := except_bind_ok hba
  have hcc := idMatch_swap hc hc'
  subst hcc
  cases c with
  | true =>
      simp only [if_true, pure_ok] at hab hba
      cases hab; cases hba; rfl
  | false =>
      simp only [if_false, Bool.false_eq_true] at hab hba
      exact nameLoop_swap hsym NAME_FIELDS hab hba

/-- C10, witness: the amended symmetry theorem applied to two records that
fail the threshold on their `name` fields. -/
theorem C10_witness :
    are_similar simZero [("name", vStr "abc")] [("name", vStr "abd")] 90 = .ok false
    ∧ are_similar simZero [("name", vStr "abd")] [("name", vStr "abc")] 90 = .ok false
    ∧ false = false :=
  ⟨rfl, rfl,
    C10_amended_thm simZero [("name", vStr "abc")] [("name", vStr "abd")] 90
      false false (fun _ _ => rfl) rfl rfl⟩

theorem truthyOk_of_ok {v : Value} {b : Bool} (h : pyTruthy v = .ok b) :
    truthyOk v = b := by
  simp only [truthyOk, h]

/-- A successful run of the name-field loop returns the threshold decision
at the first field available on both sides, and `false` when there is none. -/
theorem nameLoop_spec {sim : String → String → ℚ} {a b : Record} {t : Int} :
    ∀ fs {r}, nameLoop sim a b t fs = .ok r →
      r = (match fs.find? (specAvailPair a b) with
           | some f => decide ((t : ℚ) ≤
               sim (clean_text ((rGet a f).getD vNone))
                   (clean_text ((rGet b f).getD vNone)))
           | none => false) := by
  intro fs
  induction fs with
  | nil =>
      intro r h
      simp only [nameLoop, pure_ok] at h
      cases h
      rfl
  | cons f rest ih =>
      intro r h
      simp only [nameLoop] at h
      obtain ⟨p1, hp1, h⟩ := except_bind_ok h
      cases p1 with
      | false =>
          simp only [Bool.false_eq_true, if_false, ok_bind, Bool.false_and,
            pure_ok] at h
          have hpair : specAvailPair a b f = false := by
            simp [specAvailPair, truthyOk_of_ok hp1]
          rw [List.find?_cons_of_neg _ (by simp [hpair]), ih h]
      | true =>
          simp only [if_true] at h
          obtain ⟨p2, hp2, h⟩ := except_bind_ok h
          cases p2 with
          | false =>
              simp only [Bool.and_false, if_false, Bool.false_eq_true] at h
              have hpair : specAvailPair a b f = false := by
                simp [specAvailPair, truthyOk_of_ok hp2]
              rw [List.find?_cons_of_neg _ (by simp [hpair]), ih h]
          | true =>
              simp only [Bool.and_true, if_true, pure_ok] at h
              cases h
              have hpair : specAvailPair a b f = true := by
                simp [specAvailPair, truthyOk_of_ok hp1, truthyOk_of_ok hp2]
              rw [List.find?_cons_of_pos _ (by simp [hpair])]

/-- C7, amended: when the records do not match by identifier and the
evaluation completes without raising, `are_similar` commits to the first
name field (in the priority order of `NAME_FIELDS`) at which both records
have a truthy value: it returns exactly the comparison of the cleaned-text
similarity score against the threshold at that one field, and `false` when
no name field is available on both sides — never falling through to a later
name field.  (The fail-closed clause does not extend to raising runs: a
multi-element numpy array in a name field makes the implicit `bool()` raise
`ValueError`; see the counterexample.) -/
theorem C7_thm (sim : String → String → ℚ) (a b : Record) (t : Int) (r : Bool)
    (hid : idMatch a b = .ok false)
    (h : are_similar sim a b t = .ok r) :
    r = (match specFirstAvail a b with
         | some f => decide ((t : ℚ) ≤
             sim (clean_text ((rGet a f).getD vNone))
                 (clean_text ((rGet b f).getD vNone)))
         | none => false) := by
  simp only [are_similar] at h
  obtain ⟨c, hc, h⟩ := except_bind_ok h
  rw [hid] at hc
  cases hc
  simp only [Bool.false_eq_true, if_false] at h
  exact nameLoop_spec NAME_FIELDS h

/-- C7, witness: `product_title` is present only on one side, so the loop
commits to `product_name`; the pair `("aa", "bb")` fails the threshold under
the zero score, and the decision is exactly the one at that first field. -/
theorem C7_witness :
    (false : Bool) =
      (match specFirstAvail
          [("product_title", vStr "only left"), ("product_name", vStr "aa")]
          [("product_name", vStr "bb"), ("title", vStr "zz")] with
       | some f => decide ((90 : ℚ) ≤
           simZero
             (clean_text ((rGet [("product_title", vStr "only left"),
                ("product_name", vStr "aa")] f).getD vNone))
             (clean_text ((rGet [("product_name", vStr "bb"),
                ("title", vStr "zz")] f).getD vNone)))
       | none => false) :=
  C7_thm simZero
    [("product_title", vStr "only left"), ("product_name", vStr "aa")]
    [("product_name", vStr "bb"), ("title", vStr "zz")] 90 false rfl rfl

/-- C7, counterexample: with a multi-element numpy array stored under
`product_title` on one side and no fields at all on the other, no name
field has a value present on both sides (and the identifiers do not
match), yet `are_similar` raises `ValueError` from the implicit `bool()`
of the array instead of returning false. -/
theorem C7_counterexample :
    specFirstAvail [("product_title", vArr [vInt 3, vInt 4])] [] = none
    ∧ idMatch [("product_title", vArr [vInt 3, vInt 4])] [] = .ok false
    ∧ are_similar simZero [("product_title", vArr [vInt 3, vInt 4])] [] 90 =
      .error "ValueError: truth value of multi-element array is ambiguous" :=
  ⟨rfl, rfl, rfl⟩

theorem throw_eq {α : Type} (e : String) :
    (throw e : Except String α) = .error e := rfl

/-- The split pass returns a permutation-partition of its input. -/
theorem splitSimilar_perm {sim : String → String → ℚ} {t : Int} {seed : Record} :
    ∀ {l cl rem}, splitSimilar sim t seed l = .ok (cl, rem) →
      (cl ++ rem).Perm l := by
  intro l
  induction l with
  | nil =>
      intro cl rem h
      simp only [splitSimilar, pure_ok] at h
      cases h
      simp
  | cons r rs ih =>
      intro cl rem h
      simp only [splitSimilar] at h
      obtain ⟨b, hb, h⟩ := except_bind_ok h
      obtain ⟨⟨cl', rem'⟩, hs, h⟩ := except_bind_ok h
      have hperm := ih hs
      simp only [pure_ok] at h
      cases b with
      | false =>
          simp only [Bool.false_eq_true, if_false] at h
          cases h
          exact List.Perm.trans List.perm_middle (hperm.cons r)
      | true =>
          simp only [if_true] at h
          cases h
          exact hperm.cons r

/-- A successful run of the clustering loop partitions the block: the
clusters' concatenation is a permutation of the block and no cluster is
empty. -/
theorem processClusters_spec {sim : String → String → ℚ} {t : Int} :
    ∀ (n : ℕ) (l : List Record) (cs : List (List Record)), l.length ≤ n →
      processClusters sim t l = .ok cs →
      cs.flatten.Perm l ∧ ∀ c ∈ cs, c ≠ [] := by
  intro n
  induction n with
  | zero =>
      intro l cs hlen h
      match l with
      | [] =>
          simp only [processClusters, pure_ok] at h
          cases h
          simp
      | _ :: _ => simp at hlen
  | succ n ih =>
      intro l cs hlen h
      match l with
      | [] =>
          simp only [processClusters, pure_ok] at h
          cases h
          simp
      | r :: rs =>
          simp only [processClusters] at h
          split at h
          · rw [throw_eq] at h
            cases h
          · rename_i cl newRem hsplit
            obtain ⟨tail, htail, h⟩ := except_bind_ok h
            simp only [pure_ok] at h
            cases h
            have hlsplit := splitSimilar_length hsplit
            have hrest : ((r :: rs).dropLast).length = rs.length := by
              simp [List.length_dropLast]
            have hn : newRem.length ≤ n := by
              simp only [List.length_cons] at hlen
              omega
            obtain ⟨permTail, neTail⟩ := ih newRem tail hn htail
            constructor
            · have hsp := splitSimilar_perm hsplit
              have step1 : (cl ++ tail.flatten).Perm (cl ++ newRem) :=
                List.Perm.append_left cl permTail
              have step3 :
                  ((r :: rs).getLast (by simp) :: (r :: rs).dropLast).Perm
                    (r :: rs) := by
                conv_rhs =>
                  rw [← List.dropLast_append_getLast (l := r :: rs) (by simp)]
                exact (List.perm_append_singleton _ _).symm
              have heq : (((r :: rs).getLast (by simp) :: cl) :: tail).flatten
                  = (r :: rs).getLast (by simp) :: (cl ++ tail.flatten) := by
                simp
              rw [heq]
              exact ((step1.trans hsp).cons _).trans step3
            · intro c hc
              cases List.mem_cons.mp hc with
              | inl hc => subst hc; simp
              | inr hc => exact neTail c hc

/-- Inversion for a successful monadic map in `Except`. -/
theorem mapM_ok_forall₂ {α β : Type} {f : α → Except String β} :
    ∀ {l : List α} {l' : List β}, l.mapM f = .ok l' →
      List.Forall₂ (fun a b => f a = .ok b) l l' := by
  intro l
  induction l with
  | nil =>
      intro l' h
      simp only [List.mapM_nil, pure_ok] at h
      cases h
      constructor
  | cons x xs ih =>
      intro l' h
      rw [List.mapM_cons] at h
      obtain ⟨y, hy, h⟩ := except_bind_ok h
      obtain ⟨ys, hys, h⟩ := except_bind_ok h
      simp only [pure_ok] at h
      cases h
      exact List.Forall₂.cons hy (ih hys)

/-- C8: a successful `process_block` partitions the block into clusters —
the clusters' concatenation is a permutation of the block (every input
record lands in exactly one cluster), no cluster is empty, and the output
is exactly the merge of the clusters, one merged record per cluster. -/
theorem C8_thm (sim : String → String → ℚ) (t : Int) (block out : List Record)
    (h : process_block sim block t = .ok out) :
    ∃ cs, processClusters sim t block = .ok cs
      ∧ cs.flatten.Perm block
      ∧ (∀ c ∈ cs, c ≠ [])
      ∧ cs.mapM merge_records = .ok out
      ∧ out.length = cs.length := by
  simp only [process_block] at h
  obtain ⟨cs, hcs, h⟩ := except_bind_ok h
  obtain ⟨hperm, hne⟩ := processClusters_spec block.length block cs le_rfl hcs
  exact ⟨cs, hcs, hperm, hne, h, (mapM_ok_forall₂ h).length_eq.symm⟩

/-- Concrete evaluation of `process_block` on a two-record block whose
records are dissimilar under the zero score: two singleton clusters, the
seed popped from the end first. -/
theorem processBlockPairEval :
    process_block simZero [[("name", vStr "aa")], [("name", vStr "bb")]] 90 =
      .ok [[("name", vStr "bb")], [("name", vStr "aa")]] := by
  simp only [process_block, processClusters]
  split
  · rename_i e heq
    exact absurd heq (by rw [show splitSimilar simZero 90
        (([[("name", vStr "aa")], [("name", vStr "bb")]] : List Record).getLast
          (by simp))
        ([[("name", vStr "aa")], [("name", vStr "bb")]] : List Record).dropLast
        = .ok ([], [[("name", vStr "aa")]]) from rfl]; simp)
  · rename_i cl newRem heq
    rw [show splitSimilar simZero 90
        (([[("name", vStr "aa")], [("name", vStr "bb")]] : List Record).getLast
          (by simp))
        ([[("name", vStr "aa")], [("name", vStr "bb")]] : List Record).dropLast
        = .ok ([], [[("name", vStr "aa")]]) from rfl] at heq
    cases heq
    simp only [processClusters]
    split
    · rename_i e heq2
      exact absurd heq2 (by rw [show splitSimilar simZero 90
          (([[("name", vStr "aa")]] : List Record).getLast (by simp))
          ([[("name", vStr "aa")]] : List Record).dropLast
          = .ok ([], []) from rfl]; simp)
    · rename_i cl2 newRem2 heq2
      rw [show splitSimilar simZero 90
          (([[("name", vStr "aa")]] : List Record).getLast (by simp))
          ([[("name", vStr "aa")]] : List Record).dropLast
          = .ok ([], []) from rfl] at heq2
      cases heq2
      simp only [processClusters]
      rfl

/-- C8, witness: a two-record block clusters into two singleton clusters
(the seed is popped from the end), each merged to itself. -/
theorem C8_witness :
    ∃ cs, processClusters simZero 90
        [[("name", vStr "aa")], [("name", vStr "bb")]] = .ok cs
      ∧ cs.flatten.Perm [[("name", vStr "aa")], [("name", vStr "bb")]]
      ∧ (∀ c ∈ cs, c ≠ [])
      ∧ cs.mapM merge_records = .ok [[("name", vStr "bb")], [("name", vStr "aa")]]
      ∧ ([[("name", vStr "bb")], [("name", vStr "aa")]] : List Record).length
          = cs.length :=
  C8_thm simZero 90 [[("name", vStr "aa")], [("name", vStr "bb")]]
    [[("name", vStr "bb")], [("name", vStr "aa")]] processBlockPairEval

/-- Characters of the words produced by the split come from the accumulator
or the input. -/
theorem mem_splitWordsAux : ∀ (cs : List Char) (acc : List Char) (w : List Char),
    w ∈ splitWordsAux acc cs → ∀ c ∈ w, c ∈ acc ∨ c ∈ cs := by
  intro cs
  induction cs with
  | nil =>
      intro acc w hw c hc
      simp only [splitWordsAux] at hw
      split at hw
      · simp at hw
      · simp only [List.mem_singleton] at hw
        subst hw
        exact Or.inl (List.mem_reverse.mp hc)
  | cons d ds ih =>
      intro acc w hw c hc
      simp only [splitWordsAux] at hw
      split at hw
      · split at hw
        · rcases ih [] w hw c hc with h | h
          · simp at h
          · exact Or.inr (List.mem_cons_of_mem _ h)
        · cases List.mem_cons.mp hw with
          | inl he =>
              subst he
              exact Or.inl (List.mem_reverse.mp hc)
          | inr hw2 =>
              rcases ih [] w hw2 c hc with h | h
              · simp at h
              · exact Or.inr (List.mem_cons_of_mem _ h)
      · rcases ih (d :: acc) w hw c hc with h | h
        · cases List.mem_cons.mp h with
          | inl he => subst he; exact Or.inr (List.mem_cons_self _ _)
          | inr h2 => exact Or.inl h2
        · exact Or.inr (List.mem_cons_of_mem _ h)

/-- Characters of a word join are spaces or characters of some word. -/
theorem mem_joinWords : ∀ (ws : List (List Char)) (c : Char), c ∈ joinWords ws →
    c = ' ' ∨ ∃ w ∈ ws, c ∈ w := by
  intro ws
  induction ws with
  | nil => intro c hc; simp [joinWords] at hc
  | cons w ws ih =>
      intro c hc
      cases ws with
      | nil =>
          simp only [joinWords] at hc
          exact Or.inr ⟨w, List.mem_singleton_self w, hc⟩
      | cons w2 ws2 =>
          simp only [joinWords] at hc
          rcases List.mem_append.mp hc with h | h
          · exact Or.inr ⟨w, List.mem_cons_self _ _, h⟩
          · cases List.mem_cons.mp h with
            | inl he => exact Or.inl he
            | inr h2 =>
                rcases ih c h2 with h3 | ⟨w3, hw3, hc3⟩
                · exact Or.inl h3
                · exact Or.inr ⟨w3, List.mem_cons_of_mem _ hw3, hc3⟩

/-- Normalization `clean_text` removes the pipe character, so the two components of a
blocking key can be recovered unambiguously. -/
theorem pipe_not_mem_cleanTextL : ∀ v : Value, '|' ∉ cleanTextL v := by
  intro v hc
  cases v <;> simp only [cleanTextL] at hc <;> try exact (List.not_mem_nil _ hc)
  rcases mem_joinWords _ _ hc with h | ⟨w, hw, hcw⟩
  · exact absurd h (by decide)
  · rcases mem_splitWordsAux _ [] w hw _ hcw with h | h
    · simp at h
    · have hp := List.of_mem_filter h
      have hm : ('|' ∈ removedChars) := by decide
      simp [hm] at hp

/-- A string of the shape `a ++ "|" ++ b` with pipe-free `a` decomposes
uniquely. -/
theorem append_pipe_inj : ∀ (a1 a2 b1 b2 : List Char),
    '|' ∉ a1 → '|' ∉ a2 → a1 ++ '|' :: b1 = a2 ++ '|' :: b2 →
    a1 = a2 ∧ b1 = b2 := by
  intro a1
  induction a1 with
  | nil =>
      intro a2 b1 b2 h1 h2 he
      cases a2 with
      | nil =>
          simp only [List.nil_append] at he
          exact ⟨rfl, (List.cons.injEq _ _ _ _).mp he |>.2⟩
      | cons x xs =>
          simp only [List.nil_append, List.cons_append] at he
          obtain ⟨hx, _⟩ := (List.cons.injEq _ _ _ _).mp he
          exact absurd (hx ▸ List.mem_cons_self x xs) h2
  | cons x xs ih =>
      intro a2 b1 b2 h1 h2 he
      cases a2 with
      | nil =>
          simp only [List.cons_append, List.nil_append] at he
          obtain ⟨hx, _⟩ := (List.cons.injEq _ _ _ _).mp he
          exact absurd (hx ▸ List.mem_cons_self x xs) h1
      | cons y ys =>
          simp only [List.cons_append] at he
          obtain ⟨hx, hrest⟩ := (List.cons.injEq _ _ _ _).mp he
          have hx1 : '|' ∉ xs := fun hm => h1 (List.mem_cons_of_mem _ hm)
          have hy1 : '|' ∉ ys := fun hm => h2 (List.mem_cons_of_mem _ hm)
          obtain ⟨ha, hb⟩ := ih ys b1 b2 hx1 hy1 hrest
          exact ⟨by rw [hx, ha], hb⟩

/-- C6: two records (whose title selection evaluates) map to the same
blocking key if and only if their cleaned brand strings are equal and the
first ten characters of their cleaned title/name values are equal; the
title/name value of a record is its `product_title`, falling back to
`product_name` when the former is falsy. -/
theorem C6_thm (r1 r2 : Record) (t1 t2 : Value) (k1 k2 : String)
    (ht1 : titleOrName r1 = .ok t1) (ht2 : titleOrName r2 = .ok t2)
    (hk1 : blocking_key r1 = .ok k1) (hk2 : blocking_key r2 = .ok k2) :
    k1 = k2 ↔
      (clean_text ((rGet r1 "brand").getD (vStr "")) =
        clean_text ((rGet r2 "brand").getD (vStr ""))
      ∧ (cleanTextL t1).take 10 = (cleanTextL t2).take 10) := by
  simp only [blocking_key, ht1, ht2, ok_bind, pure_ok] at hk1 hk2
  cases hk1; cases hk2
  constructor
  · intro he
    have he2 := String.ext_iff.mp he
    have hp1 : '|' ∉ cleanTextL ((rGet r1 "brand").getD (vStr "")) :=
      pipe_not_mem_cleanTextL _
    have hp2 : '|' ∉ cleanTextL ((rGet r2 "brand").getD (vStr "")) :=
      pipe_not_mem_cleanTextL _
    obtain ⟨ha, hb⟩ := append_pipe_inj _ _ _ _ hp1 hp2 he2
    exact ⟨congrArg String.mk ha, hb⟩
  · rintro ⟨hb, ht⟩
    have hbl := String.ext_iff.mp hb
    simp only [clean_text] at hbl
    rw [show (String.mk (cleanTextL ((rGet r1 "brand").getD (vStr "")) ++
      '|' :: (cleanTextL t1).take 10)) =
        String.mk (cleanTextL ((rGet r2 "brand").getD (vStr "")) ++
      '|' :: (cleanTextL t2).take 10) from by rw [hbl, ht]]

/-- C6, witness: the spec's end-to-end records share the key
`"acme|blue widge"`, and the iff holds for them. -/
theorem C6_witness :
    ("acme|blue widge" : String) = "acme|blue widge" ↔
      (clean_text ((rGet [("brand", vStr "Acme"),
          ("product_title", vStr "Blue Widget 500")] "brand").getD (vStr "")) =
        clean_text ((rGet [("brand", vStr "Acme"),
          ("product_title", vStr "Blue Widget 500 Pro")] "brand").getD (vStr ""))
      ∧ (cleanTextL (vStr "Blue Widget 500")).take 10 =
          (cleanTextL (vStr "Blue Widget 500 Pro")).take 10) :=
  C6_thm [("brand", vStr "Acme"), ("product_title", vStr "Blue Widget 500")]
    [("brand", vStr "Acme"), ("product_title", vStr "Blue Widget 500 Pro")]
    (vStr "Blue Widget 500") (vStr "Blue Widget 500 Pro")
    "acme|blue widge" "acme|blue widge" rfl rfl rfl rfl

theorem rGet_rSet_self : ∀ (r : Record) (k : String) (v : Value),
    rGet (rSet r k v) k = some v := by
  intro r k v
  induction r with
  | nil => simp [rSet, rGet, List.find?]
  | cons kv rest ih =>
      by_cases h : kv.1 == k
      · simp [rSet, h, rGet, List.find?]
      · simp only [rSet, h, if_false]
        simpa [rGet, List.find?, h] using ih

theorem rGet_rSet_ne : ∀ (r : Record) (k k2 : String) (v : Value), k2 ≠ k →
    rGet (rSet r k v) k2 = rGet r k2 := by
  intro r k k2 v hne
  induction r with
  | nil =>
      simp [rSet, rGet, List.find?,
        show (k == k2) = false from beq_eq_false_iff_ne.mpr (fun hh => hne hh.symm)]
  | cons kv rest ih =>
      by_cases h : kv.1 == k
      · have hk : kv.1 = k := beq_iff_eq.mp h
        simp [rSet, h, rGet, List.find?, show (k == k2) = false from
            beq_eq_false_iff_ne.mpr (fun hh => hne hh.symm),
          show (kv.1 == k2) = false from
            beq_eq_false_iff_ne.mpr (by rw [hk]; exact fun hh => hne hh.symm)]
      · simp only [rSet, h, if_false]
        by_cases h2 : kv.1 == k2
        · simp [rGet, List.find?, h2]
        · simp only [rGet, List.find?, h2] at ih ⊢
          exact ih


theorem mergeStep_rGet {lf : String → Bool} {merged : Record} {kv : String × Value}
    {merged' : Record} (h : mergeStep lf merged kv = .ok merged') :
    keyStep (lf kv.1) (rGet merged kv.1) kv.2 = .ok (rGet merged' kv.1)
    ∧ ∀ k2, k2 ≠ kv.1 → rGet merged' k2 = rGet merged k2 := by
  simp only [mergeStep] at h
  by_cases hs : skipVal kv.2 = true
  · rw [if_pos hs] at h
    simp only [pure_ok] at h
    cases h
    exact ⟨by simp [keyStep, hs, pure_ok], fun k2 _ => rfl⟩
  · rw [if_neg hs] at h
    by_cases hl : lf kv.1 = true
    · rw [if_pos hl] at h
      simp only [pure_ok] at h
      cases h
      refine ⟨?_, fun k2 hne => rGet_rSet_ne _ _ _ _ hne⟩
      simp [keyStep, hs, hl, rGet_rSet_self, pure_ok]
    · rw [if_neg hl] at h
      cases hcur : rGet merged kv.1 with
      | none =>
          rw [hcur] at h
          simp only [pure_ok] at h
          cases h
          refine ⟨?_, fun k2 hne => rGet_rSet_ne _ _ _ _ hne⟩
          simp [keyStep, hs, hl, hcur, rGet_rSet_self, pure_ok]
      | some old =>
          rw [hcur] at h
          obtain ⟨w, hw, h⟩ := except_bind_ok h
          simp only [pure_ok] at h
          cases h
          refine ⟨?_, fun k2 hne => rGet_rSet_ne _ _ _ _ hne⟩
          simp [keyStep, hs, hl, hcur, rGet_rSet_self, hw, Except.map]

theorem foldlM_mergeStep_keyFold {lf : String → Bool} :
    ∀ (xs : List (String × Value)) (m0 m : Record),
      xs.foldlM (mergeStep lf) m0 = .ok m → ∀ k,
      ((xs.filter (fun kv => kv.1 == k)).map Prod.snd).foldlM
        (keyStep (lf k)) (rGet m0 k) = .ok (rGet m k) := by
  intro xs
  induction xs with
  | nil =>
      intro m0 m h k
      simp only [List.foldlM_nil, pure_ok] at h
      cases h
      simp [List.foldlM_nil, pure_ok]
  | cons kv xs ih =>
      intro m0 m h k
      rw [List.foldlM_cons] at h
      obtain ⟨m1, h1, hrest⟩ := except_bind_ok h
      obtain ⟨hself, hother⟩ := mergeStep_rGet h1
      by_cases hk : kv.1 == k
      · have hkeq : kv.1 = k := beq_iff_eq.mp hk
        rw [show List.filter (fun kv => kv.1 == k) (kv :: xs)
            = kv :: List.filter (fun kv => kv.1 == k) xs from by
          simp [List.filter_cons, hk]]
        rw [List.map_cons, List.foldlM_cons]
        rw [hkeq] at hself
        rw [hself, ok_bind]
        exact ih m1 m hrest k
      · rw [show List.filter (fun kv => kv.1 == k) (kv :: xs)
            = List.filter (fun kv => kv.1 == k) xs from by
          simp [List.filter_cons, hk]]
        have hne : k ≠ kv.1 := fun hh => hk (beq_iff_eq.mpr hh.symm)
        rw [← hother k hne]
        exact ih m1 m hrest k


theorem rGet_nil (k : String) : rGet [] k = none := rfl

theorem filter_map_snd_of_nodupKeys : ∀ (r : Record) (k : String), nodupKeys r →
    (r.filter (fun kv => kv.1 == k)).map Prod.snd = (rGet r k).toList := by
  intro r k
  induction r with
  | nil => intro _; simp [rGet, List.find?]
  | cons kv rest ih =>
      intro hnd
      have hnd2 : nodupKeys rest := by
        simp only [nodupKeys, List.map_cons, List.nodup_cons] at hnd
        exact hnd.2
      by_cases hk : kv.1 == k
      · have hkeq : kv.1 = k := beq_iff_eq.mp hk
        have hnot : ∀ kv2 ∈ rest, ¬(kv2.1 == k) := by
          intro kv2 hmem hbeq
          have : kv.1 ∈ rest.map Prod.fst := by
            rw [hkeq, ← beq_iff_eq.mp hbeq]
            exact List.mem_map_of_mem _ hmem
          simp only [nodupKeys, List.map_cons, List.nodup_cons] at hnd
          exact hnd.1 this
        have hfil : rest.filter (fun kv2 => kv2.1 == k) = [] :=
          List.filter_eq_nil_iff.mpr (fun kv2 hm => by simpa using hnot kv2 hm)
        simp [List.filter_cons, hk, hfil, rGet, List.find?]
      · rw [show List.filter (fun kv2 => kv2.1 == k) (kv :: rest)
            = List.filter (fun kv2 => kv2.1 == k) rest from by
          simp [List.filter_cons, hk]]
        rw [ih hnd2]
        simp [rGet, List.find?, hk]

theorem flatten_filter_map_snd : ∀ (rs : List Record) (k : String),
    (∀ r ∈ rs, nodupKeys r) →
    ((rs.flatten.filter (fun kv => kv.1 == k)).map Prod.snd) = fieldVals rs k := by
  intro rs k
  induction rs with
  | nil => intro _; simp [fieldVals]
  | cons r rest ih =>
      intro hn
      have h1 : nodupKeys r := hn r (List.mem_cons_self _ _)
      have h2 : ∀ r2 ∈ rest, nodupKeys r2 :=
        fun r2 hm => hn r2 (List.mem_cons_of_mem _ hm)
      simp only [List.flatten_cons, List.filter_append, List.map_append,
        filter_map_snd_of_nodupKeys r k h1, ih h2, fieldVals,
        List.filterMap_cons]
      cases rGet r k <;> simp

theorem rGet_dedupPass : ∀ (m : Record) (lf : String → Bool) (k : String),
    rGet (m.map (fun kv => if lf kv.1 then (kv.1, dedupField kv.2) else kv)) k
      = (rGet m k).map (fun v => if lf k then dedupField v else v) := by
  intro m lf k
  induction m with
  | nil => simp [rGet]
  | cons kv rest ih =>
      simp only [List.map_cons]
      by_cases hk : kv.1 == k
      · have hkeq : kv.1 = k := beq_iff_eq.mp hk
        cases hlf : lf kv.1 with
        | false =>
            simp only [hlf, Bool.false_eq_true, if_false]
            simp [rGet, List.find?, hk, ← hkeq, hlf]
        | true =>
            simp only [hlf, if_true]
            simp [rGet, List.find?, hk, ← hkeq, hlf]
      · cases hlf : lf kv.1 with
        | false =>
            simp only [hlf, Bool.false_eq_true, if_false]
            simp only [rGet, List.find?, hk] at ih ⊢
            exact ih
        | true =>
            simp only [hlf, if_true]
            simp only [rGet, List.find?, hk] at ih ⊢
            exact ih

theorem merge_records_keyFold {rs : List Record} {m : Record}
    (hn : ∀ r ∈ rs, nodupKeys r) (h : merge_records rs = .ok m) (k : String) :
    ∃ cur, (fieldVals rs k).foldlM (keyStep (isListField rs k)) none = .ok cur
      ∧ rGet m k = cur.map
          (fun v => if isListField rs k then dedupField v else v) := by
  simp only [merge_records] at h
  obtain ⟨mid, hmid, h⟩ := except_bind_ok h
  simp only [pure_ok] at h
  cases h
  have hproj := foldlM_mergeStep_keyFold rs.flatten [] mid hmid k
  rw [flatten_filter_map_snd rs k hn] at hproj
  exact ⟨rGet mid k, hproj, rGet_dedupPass mid _ k⟩

theorem keyStep_isSome {isLf : Bool} {cur cur' : Option Value} {v : Value}
    (h : keyStep isLf cur v = .ok cur') :
    cur'.isSome = (cur.isSome || !skipVal v) := by
  simp only [keyStep] at h
  by_cases hs : skipVal v = true
  · rw [if_pos hs] at h
    simp only [pure_ok] at h
    cases h
    simp [hs]
  · rw [if_neg hs] at h
    rw [Bool.not_eq_true] at hs
    by_cases hl : isLf = true
    · rw [if_pos hl] at h
      simp only [pure_ok] at h
      cases h
      simp [hs]
    · rw [if_neg hl] at h
      cases cur with
      | none =>
          simp only [pure_ok] at h
          cases h
          simp [hs]
      | some old =>
          have h2 : Except.map some (mergeScalar old v) = .ok cur' := h
          obtain ⟨w, hw, h3⟩ : ∃ w, mergeScalar old v = .ok w ∧ cur' = some w := by
            cases hms : mergeScalar old v with
            | error e => rw [hms] at h2; simp [Except.map] at h2
            | ok w =>
                rw [hms] at h2
                simp only [Except.map] at h2
                exact ⟨w, rfl, (except_ok_inj h2).symm⟩
          subst h3
          simp [hs]

theorem keyFold_isSome {isLf : Bool} :
    ∀ (vs : List Value) (c0 cur : Option Value),
      vs.foldlM (keyStep isLf) c0 = .ok cur →
      cur.isSome = (c0.isSome || vs.any (fun v => !skipVal v)) := by
  intro vs
  induction vs with
  | nil =>
      intro c0 cur h
      simp only [List.foldlM_nil, pure_ok] at h
      cases h
      simp
  | cons v vs ih =>
      intro c0 cur h
      rw [List.foldlM_cons] at h
      obtain ⟨c1, h1, hrest⟩ := except_bind_ok h
      rw [ih c1 cur hrest, keyStep_isSome h1]
      simp [Bool.or_assoc, Bool.or_comm]

theorem keyFold_list_some :
    ∀ (vs : List Value) (ys : List Value),
      vs.foldlM (keyStep true) (some (vList ys)) =
        .ok (some (vList (ys ++
          (vs.filter (fun v => !skipVal v)).flatMap pyItems))) := by
  intro vs
  induction vs with
  | nil => simp [List.foldlM_nil, pure_ok]
  | cons v vs ih =>
      intro ys
      rw [List.foldlM_cons]
      by_cases hs : skipVal v = true
      · rw [show keyStep true (some (vList ys)) v = pure (some (vList ys)) from by
          simp [keyStep, hs]]
        rw [pure_ok, ok_bind, ih ys]
        simp [List.filter_cons, hs]
      · rw [show keyStep true (some (vList ys)) v
            = pure (some (vList (ys ++ pyItems v))) from by
          simp [keyStep, hs, curElems]]
        rw [pure_ok, ok_bind, ih (ys ++ pyItems v)]
        simp [List.filter_cons, hs, List.flatMap_cons, List.append_assoc]

theorem keyFold_list_none :
    ∀ (vs : List Value),
      vs.foldlM (keyStep true) none =
        .ok (if vs.all skipVal then none
          else some (vList ((vs.filter (fun v => !skipVal v)).flatMap pyItems))) := by
  intro vs
  induction vs with
  | nil => simp [List.foldlM_nil, pure_ok]
  | cons v vs ih =>
      rw [List.foldlM_cons]
      by_cases hs : skipVal v = true
      · rw [show keyStep true none v = pure none from by simp [keyStep, hs]]
        rw [pure_ok, ok_bind, ih]
        simp [List.all_cons, hs, List.filter_cons]
      · rw [show keyStep true none v = pure (some (vList (pyItems v))) from by
          simp [keyStep, hs, curElems]]
        rw [pure_ok, ok_bind, keyFold_list_some vs (pyItems v)]
        simp [List.all_cons, hs, List.filter_cons, List.flatMap_cons]


theorem foldl_longer_firstLongest :
    ∀ (ss : List String) (s0 : String),
      ss.foldl (fun acc s => if s.length > acc.length then s else acc) s0
        = firstLongest (s0 :: ss) := by
  intro ss
  induction ss with
  | nil =>
      intro s0
      simp [firstLongest, List.foldl]
  | cons s ss ih =>
      intro s0
      rw [List.foldl_cons, ih]
      simp only [firstLongest]
      by_cases h1 : s.length > s0.length
      · rw [if_pos h1]
        by_cases h2 : (firstLongest ss).length > s.length
        · rw [if_pos h2, if_pos (by omega)]
        · rw [if_neg h2, if_pos (by omega)]
      · rw [if_neg h1]
        by_cases h2 : (firstLongest ss).length > s.length
        · by_cases h3 : (firstLongest ss).length > s0.length
          · rw [if_pos h2, if_pos h3]
          · rw [if_pos h2, if_neg h3]
        · rw [if_neg h2, if_neg (by omega), if_neg (by omega)]

theorem keyFold_str_aux :
    ∀ (vs : List Value) (ss : List String) (s0 : String),
      vs.filter (fun v => !skipVal v) = ss.map vStr →
      vs.foldlM (keyStep false) (some (vStr s0)) =
        .ok (some (vStr (ss.foldl
          (fun acc s => if s.length > acc.length then s else acc) s0))) := by
  intro vs
  induction vs with
  | nil =>
      intro ss s0 hf
      simp only [List.filter_nil] at hf
      have : ss = [] := by
        cases ss with
        | nil => rfl
        | cons a l => simp at hf
      subst this
      simp [List.foldlM_nil, pure_ok, List.foldl_nil]
  | cons v vs ih =>
      intro ss s0 hf
      rw [List.foldlM_cons]
      by_cases hs : skipVal v = true
      · rw [show keyStep false (some (vStr s0)) v = pure (some (vStr s0)) from by
          simp [keyStep, hs]]
        rw [pure_ok, ok_bind]
        rw [List.filter_cons_of_neg (by simp [hs])] at hf
        exact ih ss s0 hf
      · rw [List.filter_cons_of_pos (by simp [hs])] at hf
        cases ss with
        | nil => simp at hf
        | cons s ss2 =>
            simp only [List.map_cons, List.cons.injEq] at hf
            obtain ⟨hv, hrest⟩ := hf
            subst hv
            rw [show keyStep false (some (vStr s0)) (vStr s)
                = pure (some (vStr (if s.length > s0.length then s else s0))) from by
              simp only [keyStep, hs, Bool.false_eq_true, if_false,
                mergeScalar, pyStr]
              rw [apply_ite vStr]
              rfl]
            rw [pure_ok, ok_bind, List.foldl_cons]
            exact ih ss2 _ hrest

theorem keyFold_str :
    ∀ (vs : List Value) (s0 : String) (ss : List String),
      vs.filter (fun v => !skipVal v) = (s0 :: ss).map vStr →
      vs.foldlM (keyStep false) none =
        .ok (some (vStr (firstLongest (s0 :: ss)))) := by
  intro vs
  induction vs with
  | nil => intro s0 ss hf; simp at hf
  | cons v vs ih =>
      intro s0 ss hf
      rw [List.foldlM_cons]
      by_cases hs : skipVal v = true
      · rw [show keyStep false none v = pure none from by simp [keyStep, hs]]
        rw [pure_ok, ok_bind]
        rw [List.filter_cons_of_neg (by simp [hs])] at hf
        exact ih s0 ss hf
      · rw [List.filter_cons_of_pos (by simp [hs])] at hf
        simp only [List.map_cons, List.cons.injEq] at hf
        obtain ⟨hv, hrest⟩ := hf
        subst hv
        rw [show keyStep false none (vStr s0) = pure (some (vStr s0)) from by
          simp [keyStep, hs]]
        rw [pure_ok, ok_bind, keyFold_str_aux vs ss s0 hrest,
          foldl_longer_firstLongest]

theorem max_int_if (m0 n : Int) : (if n > m0 then n else m0) = max m0 n := by
  by_cases h : n > m0
  · rw [if_pos h, max_eq_right (le_of_lt h)]
  · rw [if_neg h, max_eq_left (le_of_not_lt h)]

theorem keyFold_int_aux :
    ∀ (vs : List Value) (ns : List Int) (n0 : Int),
      vs.filter (fun v => !skipVal v) = ns.map vInt → n0 ≠ 0 →
      (∀ n ∈ ns, n ≠ 0) →
      vs.foldlM (keyStep false) (some (vInt n0)) =
        .ok (some (vInt (ns.foldl max n0))) := by
  intro vs
  induction vs with
  | nil =>
      intro ns n0 hf h0 hns
      simp only [List.filter_nil] at hf
      have : ns = [] := by
        cases ns with
        | nil => rfl
        | cons a l => simp at hf
      subst this
      simp [List.foldlM_nil, pure_ok, List.foldl_nil]
  | cons v vs ih =>
      intro ns n0 hf h0 hns
      rw [List.foldlM_cons]
      by_cases hs : skipVal v = true
      · rw [show keyStep false (some (vInt n0)) v = pure (some (vInt n0)) from by
          simp [keyStep, hs]]
        rw [pure_ok, ok_bind]
        rw [List.filter_cons_of_neg (by simp [hs])] at hf
        exact ih ns n0 hf h0 hns
      · rw [List.filter_cons_of_pos (by simp [hs])] at hf
        cases ns with
        | nil => simp at hf
        | cons n ns2 =>
            simp only [List.map_cons, List.cons.injEq] at hf
            obtain ⟨hv, hrest⟩ := hf
            subst hv
            have hn : n ≠ 0 := hns n (List.mem_cons_self _ _)
            rw [show keyStep false (some (vInt n0)) (vInt n)
                = pure (some (vInt (max n0 n))) from by
              simp only [keyStep, hs, Bool.false_eq_true, if_false, mergeScalar,
                pyTruthy, pure_ok, ok_bind, decide_eq_true_eq]
              rw [if_pos h0, ← max_int_if n0 n, apply_ite vInt]
              rfl]
            rw [pure_ok, ok_bind, List.foldl_cons]
            have hmax : max n0 n ≠ 0 := by
              rcases max_choice n0 n with h | h <;> rw [h] <;> assumption
            exact ih ns2 (max n0 n) hrest hmax
              (fun n2 hm => hns n2 (List.mem_cons_of_mem _ hm))

theorem keyFold_int :
    ∀ (vs : List Value) (n0 : Int) (ns : List Int),
      vs.filter (fun v => !skipVal v) = (n0 :: ns).map vInt →
      (∀ n ∈ n0 :: ns, n ≠ 0) →
      vs.foldlM (keyStep false) none =
        .ok (some (vInt (ns.foldl max n0))) := by
  intro vs
  induction vs with
  | nil => intro n0 ns hf _; simp at hf
  | cons v vs ih =>
      intro n0 ns hf hns
      rw [List.foldlM_cons]
      by_cases hs : skipVal v = true
      · rw [show keyStep false none v = pure none from by simp [keyStep, hs]]
        rw [pure_ok, ok_bind]
        rw [List.filter_cons_of_neg (by simp [hs])] at hf
        exact ih n0 ns hf hns
      · rw [List.filter_cons_of_pos (by simp [hs])] at hf
        simp only [List.map_cons, List.cons.injEq] at hf
        obtain ⟨hv, hrest⟩ := hf
        subst hv
        rw [show keyStep false none (vInt n0) = pure (some (vInt n0)) from by
          simp [keyStep, hs]]
        rw [pure_ok, ok_bind]
        exact keyFold_int_aux vs ns n0 hrest
          (hns n0 (List.mem_cons_self _ _))
          (fun n hm => hns n (List.mem_cons_of_mem _ hm))

/-- C1, counterexample: merging the scores `0` then `-5` yields `-5`, not
the maximum `0` — the numeric rule compares against `old or float(-inf)`,
and the stored `0` is falsy, so any later number replaces it. -/
theorem C1_counterexample :
    merge_records [[("score", vInt 0)], [("score", vInt (-5))]] =
      .ok [("score", vInt (-5))]
    ∧ ([(0 : Int), -5].max? = some 0)
    ∧ vInt (-5) ≠ vInt 0 :=
  ⟨rfl, by decide, by decide⟩

/-- C1, amended: for every non-list field, null/NaN values are skipped
entirely (a field all of whose contributions are null is never written);
among string values the first string of maximal length wins (the first
contribution wins unless a later one is strictly longer); and among numeric
values the maximum wins provided no contributed value is zero — a falsy
stored value (`0`, `""`) is overwritten by any later number, so the
maximum is not kept in general. -/
theorem C1_amended_thm :
    (∀ (rs : List Record) (m : Record) (k : String),
        (∀ r ∈ rs, nodupKeys r) → merge_records rs = .ok m →
        (∀ v ∈ fieldVals rs k, skipVal v = true) → rGet m k = none)
    ∧ (∀ (rs : List Record) (m : Record) (k : String) (ss : List String),
        (∀ r ∈ rs, nodupKeys r) → merge_records rs = .ok m →
        isListField rs k = false →
        (fieldVals rs k).filter (fun v => !skipVal v) = ss.map vStr →
        ss ≠ [] →
        rGet m k = some (vStr (firstLongest ss)))
    ∧ (∀ (rs : List Record) (m : Record) (k : String) (ns : List Int),
        (∀ r ∈ rs, nodupKeys r) → merge_records rs = .ok m →
        isListField rs k = false →
        (fieldVals rs k).filter (fun v => !skipVal v) = ns.map vInt →
        ns ≠ [] → (∀ n ∈ ns, n ≠ 0) →
        ∃ mx, ns.max? = some mx ∧ rGet m k = some (vInt mx)) := by
  refine ⟨?_, ?_, ?_⟩
  · intro rs m k hn h hskip
    obtain ⟨cur, hcur, hmap⟩ := merge_records_keyFold hn h k
    have hsome := keyFold_isSome (fieldVals rs k) none cur hcur
    have hany : (fieldVals rs k).any (fun v => !skipVal v) = false := by
      rw [List.any_eq_false]
      intro v hv
      simp [hskip v hv]
    rw [hany] at hsome
    simp only [Option.isSome_none, Bool.false_or] at hsome
    cases cur with
    | none => exact hmap
    | some w => simp at hsome
  · intro rs m k ss hn h hlf hfil hne
    obtain ⟨cur, hcur, hmap⟩ := merge_records_keyFold hn h k
    rw [hlf] at hcur
    cases ss with
    | nil => exact absurd rfl hne
    | cons s0 ss2 =>
        rw [keyFold_str (fieldVals rs k) s0 ss2 hfil] at hcur
        have hc := except_ok_inj hcur
        subst hc
        rw [hmap]
        simp [hlf]
  · intro rs m k ns hn h hlf hfil hne hnz
    obtain ⟨cur, hcur, hmap⟩ := merge_records_keyFold hn h k
    rw [hlf] at hcur
    cases ns with
    | nil => exact absurd rfl hne
    | cons n0 ns2 =>
        rw [keyFold_int (fieldVals rs k) n0 ns2 hfil hnz] at hcur
        have hc := except_ok_inj hcur
        subst hc
        rw [hmap]
        exact ⟨ns2.foldl max n0, rfl, by simp [hlf]⟩

/-- C1, witness: the three parts applied to the spec's own merge examples —
an all-null field is absent, `desc` keeps the longer description, and
`score` keeps the maximum `3` of the nonzero values `3` and `1`. -/
theorem C1_witness :
    rGet [("a", vInt 7)] "gone" = none
    ∧ rGet [("desc", vStr "a longer description")] "desc" =
        some (vStr (firstLongest ["a", "a longer description"]))
    ∧ (∃ mx, [(3 : Int), 1].max? = some mx ∧
        rGet [("score", vInt 3)] "score" = some (vInt mx)) :=
  ⟨C1_amended_thm.1 [[("a", vInt 7)], [("gone", vNone)]] [("a", vInt 7)] "gone"
      (by decide) rfl (by decide),
   C1_amended_thm.2.1 [[("desc", vStr "a")], [("desc", vStr "a longer description")]]
      [("desc", vStr "a longer description")] "desc" ["a", "a longer description"]
      (by decide) rfl (by decide) (by decide) (by decide),
   C1_amended_thm.2.2 [[("score", vInt 3)], [("score", vInt 1)]]
      [("score", vInt 3)] "score" [3, 1]
      (by decide) rfl (by decide) (by decide) (by decide) (by decide)⟩

/-- C5: for a non-empty group, a field is present in the merged record
exactly when some input contributed a non-null value for it, and a
list-typed field holds the deduplicated-by-string (first occurrence,
encounter order) union of every contributed element, scalars contributing
themselves as one-element sequences. -/
theorem C5_thm :
    ∀ (rs : List Record) (m : Record), rs ≠ [] →
      (∀ r ∈ rs, nodupKeys r) → merge_records rs = .ok m →
      ∀ k, ((rGet m k).isSome ↔ ∃ v ∈ fieldVals rs k, skipVal v = false)
        ∧ (isListField rs k = true →
            (∃ v ∈ fieldVals rs k, skipVal v = false) →
            rGet m k = some (vList (dedupByStr
              (((fieldVals rs k).filter (fun v => !skipVal v)).flatMap
                pyItems)))) := by
  intro rs m _ hn h k
  obtain ⟨cur, hcur, hmap⟩ := merge_records_keyFold hn h k
  have hsome := keyFold_isSome (fieldVals rs k) none cur hcur
  constructor
  · rw [hmap]
    have hiso : (Option.map
        (fun v => if isListField rs k = true then dedupField v else v) cur).isSome
        = cur.isSome := by cases cur <;> rfl
    rw [hiso, hsome]
    simp only [Option.isSome_none, Bool.false_or, List.any_eq_true,
      Bool.not_eq_true']
  · intro hlf hex
    rw [hlf] at hcur
    rw [keyFold_list_none (fieldVals rs k)] at hcur
    have hall : (fieldVals rs k).all skipVal = false := by
      rw [List.all_eq_false]
      obtain ⟨v, hv, hsv⟩ := hex
      exact ⟨v, hv, by simp [hsv]⟩
    rw [hall] at hcur
    simp only [Bool.false_eq_true, if_false] at hcur
    have hc := except_ok_inj hcur
    subst hc
    rw [hmap]
    simp [hlf, dedupField]

/-- C5, witness: merging list-field values `[1,2]` and `[2,3]` yields the
field `[1,2,3]`, present exactly because a non-null value was contributed. -/
theorem C5_witness :
    ((rGet [("xs", vList [vInt 1, vInt 2, vInt 3])] "xs").isSome ↔
      ∃ v ∈ fieldVals [[("xs", vList [vInt 1, vInt 2])],
          [("xs", vList [vInt 2, vInt 3])]] "xs", skipVal v = false)
    ∧ (isListField [[("xs", vList [vInt 1, vInt 2])],
          [("xs", vList [vInt 2, vInt 3])]] "xs" = true →
        (∃ v ∈ fieldVals [[("xs", vList [vInt 1, vInt 2])],
            [("xs", vList [vInt 2, vInt 3])]] "xs", skipVal v = false) →
        rGet [("xs", vList [vInt 1, vInt 2, vInt 3])] "xs" =
          some (vList (dedupByStr
            (((fieldVals [[("xs", vList [vInt 1, vInt 2])],
                [("xs", vList [vInt 2, vInt 3])]] "xs").filter
              (fun v => !skipVal v)).flatMap pyItems)))) :=
  C5_thm [[("xs", vList [vInt 1, vInt 2])], [("xs", vList [vInt 2, vInt 3])]]
    [("xs", vList [vInt 1, vInt 2, vInt 3])] (by decide) (by decide) rfl "xs"

theorem heap_set_preserves {l : Heap} {a b : Nat} {x : List Value} (h : a ≠ b) :
    (l.set a x).get? b = l.get? b := by
  rw [List.get?_eq_getElem?, List.get?_eq_getElem?, List.getElem?_set_ne h]

theorem heap_append_preserves {l l2 : Heap} {b : Nat} (h : b < l.length) :
    (l ++ l2).get? b = l.get? b := by
  rw [List.get?_eq_getElem?, List.get?_eq_getElem?, List.getElem?_append_left h]

theorem mem_hSet : ∀ (r : HRecord) (k : String) (v : HVal) (kv : String × HVal),
    kv ∈ hSet r k v → kv = (k, v) ∨ kv ∈ r := by
  intro r k v
  induction r with
  | nil => intro kv h; simp [hSet] at h; exact Or.inl h
  | cons kv0 rest ih =>
      intro kv h
      by_cases hk : kv0.1 == k
      · simp only [hSet, hk, if_true] at h
        cases List.mem_cons.mp h with
        | inl he => exact Or.inl he
        | inr hm => exact Or.inr (List.mem_cons_of_mem _ hm)
      · simp only [hSet, hk, Bool.false_eq_true, if_false] at h
        cases List.mem_cons.mp h with
        | inl he => exact Or.inr (he ▸ List.mem_cons_self _ _)
        | inr hm =>
            cases ih kv hm with
            | inl he => exact Or.inl he
            | inr hm2 => exact Or.inr (List.mem_cons_of_mem _ hm2)

theorem hGet_mem {m : HRecord} {k : String} {v : HVal} (h : hGet m k = some v) :
    ∃ kv ∈ m, kv.2 = v := by
  simp only [hGet] at h
  cases hf : m.find? (fun kv => kv.1 == k) with
  | none => rw [hf] at h; simp at h
  | some kv =>
      rw [hf] at h
      simp only [Option.map_some'] at h
      cases h
      exact ⟨kv, List.mem_of_find?_eq_some hf, rfl⟩

theorem mergeStepH_frame {lf : String → Bool} {heap0 : Heap} {m : HRecord}
    {h : Heap} {kv : String × HVal} {m' : HRecord} {h' : Heap}
    (hstep : mergeStepH lf (m, h) kv = .ok (m', h'))
    (hkv : isListLikeH kv.2 = true → lf kv.1 = true)
    (hlen : heap0.length ≤ h.length)
    (hpre : ∀ a, a < heap0.length → h.get? a = heap0.get? a)
    (hrefs : ∀ kv2 ∈ m, ∀ a, kv2.2 = HVal.ref a →
      heap0.length ≤ a ∧ a < h.length) :
    heap0.length ≤ h'.length
    ∧ (∀ a, a < heap0.length → h'.get? a = heap0.get? a)
    ∧ (∀ kv2 ∈ m', ∀ a, kv2.2 = HVal.ref a →
        heap0.length ≤ a ∧ a < h'.length) := by
  simp only [mergeStepH] at hstep
  by_cases hs : skipValH kv.2 = true
  · rw [if_pos hs] at hstep
    simp only [pure_ok] at hstep
    cases hstep
    exact ⟨hlen, hpre, hrefs⟩
  · rw [if_neg hs] at hstep
    by_cases hl : lf kv.1 = true
    · rw [if_pos hl] at hstep
      cases hg : hGet m kv.1 with
      | none =>
          rw [hg] at hstep
          obtain ⟨y, hy, hstep⟩ := except_bind_ok hstep
          simp only [pure_ok] at hy
          cases hy
          obtain ⟨items, hitems, hstep⟩ := except_bind_ok hstep
          obtain ⟨old, holdv, hstep⟩ := except_bind_ok hstep
          simp only [pure_ok] at hstep
          cases hstep
          refine ⟨?_, ?_, ?_⟩
          · simp only [List.length_set, List.length_append, List.length_cons,
              List.length_nil]
            omega
          · intro a ha
            rw [heap_set_preserves (by omega), heap_append_preserves (by omega)]
            exact hpre a ha
          · intro kv2 hm2 a hrefa
            cases mem_hSet m kv.1 (HVal.ref h.length) kv2 hm2 with
            | inl he =>
                subst he
                simp only at hrefa
                cases hrefa
                refine ⟨hlen, ?_⟩
                simp only [List.length_set, List.length_append,
                  List.length_cons, List.length_nil]
                omega
            | inr hm3 =>
                obtain ⟨hb1, hb2⟩ := hrefs kv2 hm3 a hrefa
                refine ⟨hb1, ?_⟩
                simp only [List.length_set, List.length_append,
                  List.length_cons, List.length_nil]
                omega
      | some w =>
          cases w with
          | ref a0 =>
              rw [hg] at hstep
              obtain ⟨y, hy, hstep⟩ := except_bind_ok hstep
              simp only [pure_ok] at hy
              cases hy
              obtain ⟨items, hitems, hstep⟩ := except_bind_ok hstep
              obtain ⟨old, holdv, hstep⟩ := except_bind_ok hstep
              simp only [pure_ok] at hstep
              cases hstep
              obtain ⟨kv2, hm2, hv2⟩ := hGet_mem hg
              obtain ⟨hb1, hb2⟩ := hrefs kv2 hm2 a0 hv2
              refine ⟨?_, ?_, ?_⟩
              · rw [List.length_set]; exact hlen
              · intro a ha
                rw [heap_set_preserves (by omega)]
                exact hpre a ha
              · intro kv3 hm3 a hrefa
                obtain ⟨hc1, hc2⟩ := hrefs kv3 hm3 a hrefa
                exact ⟨hc1, by rw [List.length_set]; exact hc2⟩
          | imm w0 =>
              rw [hg] at hstep
              obtain ⟨y, hy, hstep⟩ := except_bind_ok hstep
              cases hy
    · rw [if_neg hl] at hstep
      have himm : ∃ w0, kv.2 = HVal.imm w0 := by
        cases hv : kv.2 with
        | imm w0 => exact ⟨w0, rfl⟩
        | ref a =>
            exact absurd (hkv (by rw [hv]; rfl)) hl
      obtain ⟨w0, hw0⟩ := himm
      cases hg : hGet m kv.1 with
      | none =>
          rw [hg] at hstep
          simp only [pure_ok] at hstep
          cases hstep
          refine ⟨hlen, hpre, ?_⟩
          intro kv2 hm2 a hrefa
          cases mem_hSet m kv.1 kv.2 kv2 hm2 with
          | inl he =>
              subst he
              rw [hw0] at hrefa
              simp at hrefa
          | inr hm3 => exact hrefs kv2 hm3 a hrefa
      | some old =>
          rw [hg] at hstep
          obtain ⟨w, hwok, hstep⟩ := except_bind_ok hstep
          simp only [pure_ok] at hstep
          cases hstep
          have hwimm : ∃ w1, w = HVal.imm w1 := by
            cases old with
            | imm o =>
                rw [hw0] at hwok
                have hwok2 : Except.map HVal.imm (mergeScalar o w0) = .ok w :=
                  hwok
                cases hms : mergeScalar o w0 with
                | error e => rw [hms] at hwok2; simp [Except.map] at hwok2
                | ok w1 =>
                    rw [hms] at hwok2
                    simp only [Except.map] at hwok2
                    exact ⟨w1, (except_ok_inj hwok2).symm⟩
            | ref a =>
                have : (throw "unreachable: list object at a non-list field"
                    : Except String HVal) = .ok w := hwok
                simp [throw_eq] at this
          obtain ⟨w1, hw1⟩ := hwimm
          refine ⟨hlen, hpre, ?_⟩
          intro kv2 hm2 a hrefa
          cases mem_hSet m kv.1 w kv2 hm2 with
          | inl he =>
              subst he
              rw [hw1] at hrefa
              simp at hrefa
          | inr hm3 => exact hrefs kv2 hm3 a hrefa

theorem foldlM_mergeStepH_frame {lf : String → Bool} {heap0 : Heap} :
    ∀ (xs : List (String × HVal)) (m : HRecord) (h : Heap) (m' : HRecord)
      (h' : Heap),
      xs.foldlM (mergeStepH lf) (m, h) = .ok (m', h') →
      (∀ kv ∈ xs, isListLikeH kv.2 = true → lf kv.1 = true) →
      heap0.length ≤ h.length →
      (∀ a, a < heap0.length → h.get? a = heap0.get? a) →
      (∀ kv2 ∈ m, ∀ a, kv2.2 = HVal.ref a →
        heap0.length ≤ a ∧ a < h.length) →
      heap0.length ≤ h'.length
      ∧ (∀ a, a < heap0.length → h'.get? a = heap0.get? a)
      ∧ (∀ kv2 ∈ m', ∀ a, kv2.2 = HVal.ref a →
          heap0.length ≤ a ∧ a < h'.length) := by
  intro xs
  induction xs with
  | nil =>
      intro m h m' h' hfold hxs hlen hpre hrefs
      simp only [List.foldlM_nil, pure_ok] at hfold
      cases hfold
      exact ⟨hlen, hpre, hrefs⟩
  | cons kv xs ih =>
      intro m h m' h' hfold hxs hlen hpre hrefs
      rw [List.foldlM_cons] at hfold
      obtain ⟨st1, hstep, hrest⟩ := except_bind_ok hfold
      obtain ⟨hl1, hp1, hr1⟩ := mergeStepH_frame
        (show mergeStepH lf (m, h) kv = .ok (st1.1, st1.2) from by
          rw [hstep])
        (hxs kv (List.mem_cons_self _ _)) hlen hpre hrefs
      exact ih st1.1 st1.2 m' h'
        (by rw [show (st1.1, st1.2) = st1 from rfl]; exact hrest)
        (fun kv2 hm2 => hxs kv2 (List.mem_cons_of_mem _ hm2)) hl1 hp1 hr1

theorem dedupPassH_frame {lf : String → Bool} {heap0 : Heap} :
    ∀ (m : HRecord) (h : Heap) (m' : HRecord) (h' : Heap),
      dedupPassH lf m h = .ok (m', h') →
      heap0.length ≤ h.length →
      (∀ a, a < heap0.length → h.get? a = heap0.get? a) →
      (∀ kv2 ∈ m, ∀ a, kv2.2 = HVal.ref a → heap0.length ≤ a) →
      heap0.length ≤ h'.length
      ∧ (∀ a, a < heap0.length → h'.get? a = heap0.get? a)
      ∧ (∀ kv2 ∈ m', ∀ a, kv2.2 = HVal.ref a → heap0.length ≤ a) := by
  intro m
  induction m with
  | nil =>
      intro h m' h' hd hlen hpre hrefs
      simp only [dedupPassH, pure_ok] at hd
      cases hd
      exact ⟨hlen, hpre, fun kv2 hm2 => by simp at hm2⟩
  | cons kv rest ih =>
      intro h m' h' hd hlen hpre hrefs
      simp only [dedupPassH] at hd
      by_cases hl : lf kv.1 = true
      · rw [if_pos hl] at hd
        cases hv : kv.2 with
        | ref a =>
            rw [hv] at hd
            obtain ⟨xs, hxs, hd⟩ := except_bind_ok hd
            obtain ⟨s, hds, hd⟩ := except_bind_ok hd
            simp only [pure_ok] at hd
            cases hd
            obtain ⟨hl2, hp2, hr2⟩ := ih (h ++ [dedupByStr xs]) s.1 s.2 hds
              (by simp only [List.length_append, List.length_cons,
                List.length_nil]; omega)
              (fun a2 ha2 => by
                rw [heap_append_preserves (by omega)]
                exact hpre a2 ha2)
              (fun kv2 hm2 a2 hrefa =>
                hrefs kv2 (List.mem_cons_of_mem _ hm2) a2 hrefa)
            refine ⟨hl2, hp2, ?_⟩
            intro kv2 hm2 a2 hrefa
            cases List.mem_cons.mp hm2 with
            | inl he =>
                subst he
                simp only at hrefa
                cases hrefa
                exact hlen
            | inr hm3 => exact hr2 kv2 hm3 a2 hrefa
        | imm w0 =>
            rw [hv] at hd
            have hd2 : (Except.error "unreachable: non-list stored at a list field"
                : Except String (HRecord × Heap)) = .ok (m', h') := hd
            cases hd2
      · rw [if_neg hl] at hd
        obtain ⟨s, hds, hd⟩ := except_bind_ok hd
        simp only [pure_ok] at hd
        cases hd
        obtain ⟨hl2, hp2, hr2⟩ := ih h s.1 s.2 hds hlen hpre
          (fun kv2 hm2 a2 hrefa =>
            hrefs kv2 (List.mem_cons_of_mem _ hm2) a2 hrefa)
        refine ⟨hl2, hp2, ?_⟩
        intro kv2 hm2 a2 hrefa
        cases List.mem_cons.mp hm2 with
        | inl he =>
            rw [he] at hrefa
            exact hrefs kv (List.mem_cons_self _ _) a2 hrefa
        | inr hm3 => exact hr2 kv2 hm3 a2 hrefa

/-- C9: `merge_records` never mutates an input record.  In the heap model
(list values are references to mutable heap cells), a successful merge (1)
leaves every pre-existing heap cell unchanged — so every input record still
holds exactly the fields and values, including referenced list contents, it
held before — and (2) returns a record all of whose list references point
to freshly allocated cells, so the merged record shares no mutable object
with any input. -/
theorem C9_thm (records : List HRecord) (heap0 : Heap) (m : HRecord)
    (heap1 : Heap) (h : merge_recordsH records heap0 = .ok (m, heap1)) :
    (heap0.length ≤ heap1.length
      ∧ ∀ a, a < heap0.length → heap1.get? a = heap0.get? a)
    ∧ (∀ rec ∈ records, ∀ kv ∈ rec, ∀ a, kv.2 = HVal.ref a →
        a < heap0.length → heap1.get? a = heap0.get? a)
    ∧ (∀ kv ∈ m, ∀ a, kv.2 = HVal.ref a → heap0.length ≤ a) := by
  simp only [merge_recordsH] at h
  obtain ⟨st, hfold, hd⟩ := except_bind_ok h
  have hxs : ∀ kv ∈ records.flatten, isListLikeH kv.2 = true →
      isListFieldH records kv.1 = true := by
    intro kv hm hll
    obtain ⟨rec, hrec, hkv⟩ := List.mem_flatten.mp hm
    simp only [isListFieldH, List.any_eq_true]
    exact ⟨rec, hrec, kv, hkv, by simp [hll]⟩
  obtain ⟨hl1, hp1, hr1⟩ := foldlM_mergeStepH_frame records.flatten [] heap0
    st.1 st.2 (by rw [show (st.1, st.2) = st from rfl]; exact hfold) hxs
    le_rfl (fun a _ => rfl) (fun kv2 hm2 => by simp at hm2)
  obtain ⟨hl2, hp2, hr2⟩ := dedupPassH_frame st.1 st.2 m heap1 hd hl1 hp1
    (fun kv2 hm2 a hrefa => (hr1 kv2 hm2 a hrefa).1)
  exact ⟨⟨hl2, hp2⟩,
    fun rec _ kv _ a _ ha => hp2 a ha,
    hr2⟩

/-- C9, witness: merging one record holding a reference to the list
`[1, 1]` allocates two fresh cells and leaves cell `0` untouched. -/
theorem C9_witness :
    (([[vInt 1, vInt 1]] : Heap).length ≤
        ([[vInt 1, vInt 1], [vInt 1, vInt 1], [vInt 1]] : Heap).length
      ∧ ∀ a, a < ([[vInt 1, vInt 1]] : Heap).length →
        ([[vInt 1, vInt 1], [vInt 1, vInt 1], [vInt 1]] : Heap).get? a =
          ([[vInt 1, vInt 1]] : Heap).get? a)
    ∧ (∀ rec ∈ [[("tags", HVal.ref 0)]], ∀ kv ∈ rec, ∀ a,
        kv.2 = HVal.ref a → a < ([[vInt 1, vInt 1]] : Heap).length →
        ([[vInt 1, vInt 1], [vInt 1, vInt 1], [vInt 1]] : Heap).get? a =
          ([[vInt 1, vInt 1]] : Heap).get? a)
    ∧ (∀ kv ∈ [("tags", HVal.ref 2)], ∀ a, kv.2 = HVal.ref a →
        ([[vInt 1, vInt 1]] : Heap).length ≤ a) :=
  C9_thm [[("tags", HVal.ref 0)]] [[vInt 1, vInt 1]] [("tags", HVal.ref 2)]
    [[vInt 1, vInt 1], [vInt 1, vInt 1], [vInt 1]] rfl

theorem forall₂_mem_left {α β : Type} {R : α → β → Prop} :
    ∀ {l : List α} {l' : List β}, List.Forall₂ R l l' → ∀ {a}, a ∈ l →
      ∃ b ∈ l', R a b := by
  intro l l' h
  induction h with
  | nil => intro a ha; simp at ha
  | cons hr _ ih =>
      intro a ha
      cases List.mem_cons.mp ha with
      | inl he => exact ⟨_, List.mem_cons_self _ _, he ▸ hr⟩
      | inr hm =>
          obtain ⟨b, hb, hrb⟩ := ih hm
          exact ⟨b, List.mem_cons_of_mem _ hb, hrb⟩

theorem forall₂_mem_right {α β : Type} {R : α → β → Prop} :
    ∀ {l : List α} {l' : List β}, List.Forall₂ R l l' → ∀ {b}, b ∈ l' →
      ∃ a ∈ l, R a b := by
  intro l l' h
  induction h with
  | nil => intro b hb; simp at hb
  | cons hr _ ih =>
      intro b hb
      cases List.mem_cons.mp hb with
      | inl he => exact ⟨_, List.mem_cons_self _ _, he ▸ hr⟩
      | inr hm =>
          obtain ⟨a, ha, hra⟩ := ih hm
          exact ⟨a, List.mem_cons_of_mem _ ha, hra⟩

theorem keys_rSet : ∀ (r : Record) (k : String) (v : Value),
    (rSet r k v).map Prod.fst =
      if (r.map Prod.fst).contains k then r.map Prod.fst
      else r.map Prod.fst ++ [k] := by
  intro r k v
  induction r with
  | nil => simp [rSet]
  | cons kv rest ih =>
      by_cases hk : kv.1 == k
      · have : kv.1 = k := beq_iff_eq.mp hk
        simp [rSet, hk, List.contains_cons, this]
      · simp only [rSet, hk, Bool.false_eq_true, if_false, List.map_cons, ih,
          List.contains_cons]
        have : (k == kv.1) = false := by
          rw [beq_eq_false_iff_ne]
          intro he
          exact absurd (beq_iff_eq.mpr he.symm) (by simp [hk])
        rw [this]
        simp only [Bool.false_or]
        by_cases hc : (rest.map Prod.fst).contains k
        · rw [if_pos hc, if_pos hc]
        · rw [if_neg hc, if_neg hc, List.cons_append]

theorem nodupKeys_rSet {r : Record} {k : String} {v : Value}
    (h : nodupKeys r) : nodupKeys (rSet r k v) := by
  unfold nodupKeys at h ⊢
  rw [keys_rSet]
  by_cases hc : (r.map Prod.fst).contains k
  · rw [if_pos hc]; exact h
  · rw [if_neg hc]
    rw [List.nodup_append]
    refine ⟨h, List.nodup_singleton k, ?_⟩
    intro a ha hb
    simp only [List.mem_singleton] at hb
    subst hb
    exact hc (List.elem_eq_true_of_mem ha)

theorem mem_rGet_of_nodup : ∀ {r : Record} {kv : String × Value},
    nodupKeys r → kv ∈ r → rGet r kv.1 = some kv.2 := by
  intro r
  induction r with
  | nil => intro kv _ h; simp at h
  | cons kv0 rest ih =>
      intro kv hnd hm
      have hnd2 : nodupKeys rest := by
        simp only [nodupKeys, List.map_cons, List.nodup_cons] at hnd
        exact hnd.2
      cases List.mem_cons.mp hm with
      | inl he =>
          subst he
          simp [rGet, List.find?]
      | inr hm2 =>
          have hne : kv0.1 ≠ kv.1 := by
            intro he
            simp only [nodupKeys, List.map_cons, List.nodup_cons] at hnd
            exact hnd.1 (he ▸ List.mem_map_of_mem Prod.fst hm2)
          have : (kv0.1 == kv.1) = false := beq_eq_false_iff_ne.mpr hne
          simp only [rGet, List.find?, this]
          exact ih hnd2 hm2

theorem rGet_mem : ∀ {r : Record} {k : String} {v : Value},
    rGet r k = some v → (k, v) ∈ r := by
  intro r k v h
  simp only [rGet] at h
  cases hf : r.find? (fun kv => kv.1 == k) with
  | none => rw [hf] at h; simp at h
  | some kv =>
      rw [hf] at h
      simp only [Option.map_some'] at h
      cases h
      have hp := List.find?_some hf
      have hm := List.mem_of_find?_eq_some hf
      have : kv.1 = k := beq_iff_eq.mp hp
      rw [← this]
      exact hm

theorem mem_distinctIds_aux :
    ∀ (rs : List Record) (acc : List Value) (x : Value),
      x ∈ rs.foldl (fun acc r =>
        if acc.contains (recId r) then acc else acc ++ [recId r]) acc ↔
      x ∈ acc ∨ ∃ r ∈ rs, recId r = x := by
  intro rs
  induction rs with
  | nil => intro acc x; simp [List.foldl_nil]
  | cons r rest ih =>
      intro acc x
      rw [List.foldl_cons]
      by_cases hc : acc.contains (recId r)
      · rw [if_pos hc, ih]
        have hmem : recId r ∈ acc := List.elem_iff.mp hc
        constructor
        · rintro (hx | ⟨r2, h1, h2⟩)
          · exact Or.inl hx
          · exact Or.inr ⟨r2, List.mem_cons_of_mem _ h1, h2⟩
        · rintro (hx | ⟨r2, h1, h2⟩)
          · exact Or.inl hx
          · cases List.mem_cons.mp h1 with
            | inl he =>
                refine Or.inl ?_
                rw [← h2, he]
                exact hmem
            | inr hm => exact Or.inr ⟨r2, hm, h2⟩
      · rw [if_neg hc, ih]
        constructor
        · rintro (hx | ⟨r2, h1, h2⟩)
          · cases List.mem_append.mp hx with
            | inl hx2 => exact Or.inl hx2
            | inr hx2 =>
                simp only [List.mem_singleton] at hx2
                exact Or.inr ⟨r, List.mem_cons_self _ _, hx2.symm⟩
          · exact Or.inr ⟨r2, List.mem_cons_of_mem _ h1, h2⟩
        · rintro (hx | ⟨r2, h1, h2⟩)
          · exact Or.inl (List.mem_append.mpr (Or.inl hx))
          · cases List.mem_cons.mp h1 with
            | inl he =>
                subst he
                subst h2
                exact Or.inl (List.mem_append.mpr (Or.inr (by simp)))
            | inr hm => exact Or.inr ⟨r2, hm, h2⟩

theorem mem_distinctIds (rs : List Record) (x : Value) :
    x ∈ distinctIds rs ↔ ∃ r ∈ rs, recId r = x := by
  rw [distinctIds, mem_distinctIds_aux]
  simp

theorem distinctIds_nodup_aux :
    ∀ (rs : List Record) (acc : List Value), acc.Nodup →
      (rs.foldl (fun acc r =>
        if acc.contains (recId r) then acc else acc ++ [recId r]) acc).Nodup := by
  intro rs
  induction rs with
  | nil => intro acc h; simpa [List.foldl_nil] using h
  | cons r rest ih =>
      intro acc h
      rw [List.foldl_cons]
      by_cases hc : acc.contains (recId r)
      · rw [if_pos hc]; exact ih acc h
      · rw [if_neg hc]
        refine ih _ ?_
        rw [List.nodup_append]
        refine ⟨h, List.nodup_singleton _, ?_⟩
        intro a ha hb
        simp only [List.mem_singleton] at hb
        subst hb
        exact hc (List.elem_eq_true_of_mem ha)

theorem distinctIds_nodup (rs : List Record) : (distinctIds rs).Nodup :=
  distinctIds_nodup_aux rs [] List.nodup_nil

theorem mergeScalar_self {w : Value} (h : isScalarLike w = true) :
    mergeScalar w w = .ok w := by
  cases w
  case vInt n =>
      simp only [mergeScalar, pyTruthy, pure_ok, ok_bind]
      by_cases hn : n = 0
      · subst hn; simp
      · simp [hn]
  case vStr s => simp [mergeScalar, pyStr, pure_ok]
  all_goals simp [isScalarLike] at h

theorem keyFold_const_aux :
    ∀ (vs : List Value) (w : Value), (∀ u ∈ vs, u = w) →
      isScalarLike w = true →
      vs.foldlM (keyStep false) (some w) = .ok (some w) := by
  intro vs
  induction vs with
  | nil => intro w _ _; simp [List.foldlM_nil, pure_ok]
  | cons v vs ih =>
      intro w hall hsc
      have hv : v = w := hall v (List.mem_cons_self _ _)
      subst hv
      rw [List.foldlM_cons]
      have hskip : skipVal v = false := by
        cases v <;> first | rfl | simp [isScalarLike] at hsc
      rw [show keyStep false (some v) v = .ok (some v) from by
        simp [keyStep, hskip, mergeScalar_self hsc, Except.map]]
      rw [ok_bind]
      exact ih v (fun u hu => hall u (List.mem_cons_of_mem _ hu)) hsc

theorem keyFold_const :
    ∀ (vs : List Value) (w : Value), (∀ u ∈ vs, u = w) → vs ≠ [] →
      isScalarLike w = true →
      vs.foldlM (keyStep false) none = .ok (some w) := by
  intro vs w hall hne hsc
  cases vs with
  | nil => exact absurd rfl hne
  | cons v vs =>
      have hv : v = w := hall v (List.mem_cons_self _ _)
      subst hv
      rw [List.foldlM_cons]
      have hskip : skipVal v = false := by
        cases v <;> first | rfl | simp [isScalarLike] at hsc
      rw [show keyStep false none v = .ok (some v) from by
        simp [keyStep, hskip, pure_ok]]
      rw [ok_bind]
      exact keyFold_const_aux vs v
        (fun u hu => hall u (List.mem_cons_of_mem _ hu)) hsc

theorem normRec_inv {r r2 : Record} (h : normRec r = .ok r2) :
    ∃ nid, normalize_id ((rGet r "product_identifier").getD vNaN) = .ok nid
      ∧ r2 = rSet r "product_identifier" nid := by
  simp only [normRec] at h
  obtain ⟨nid, hnid, h⟩ := except_bind_ok h
  simp only [pure_ok] at h
  cases h
  exact ⟨nid, hnid, rfl⟩

theorem filter_length_of_forall₂ {α β : Type} {R : α → β → Prop}
    (p : α → Bool) (q : β → Bool) :
    ∀ {ws : List α} {ms : List β}, List.Forall₂ R ws ms →
      (∀ w b, w ∈ ws → R w b → q b = p w) →
      (ms.filter q).length = (ws.filter p).length := by
  intro ws ms h
  induction h with
  | nil => intro _; rfl
  | cons hr ht ih =>
      rename_i w b ws2 ms2
      intro hpt
      have hq : q b = p w := hpt w b (List.mem_cons_self _ _) hr
      have ihh := ih (fun w2 b2 hw2 hr2 =>
        hpt w2 b2 (List.mem_cons_of_mem _ hw2) hr2)
      simp only [List.filter_cons]
      rw [hq]
      by_cases hp : p w = true
      · rw [if_pos hp, if_pos hp]
        simp [ihh]
      · rw [if_neg hp, if_neg hp]
        exact ihh

theorem mem_fieldVals {rs : List Record} {k : String} {u : Value} :
    u ∈ fieldVals rs k ↔ ∃ r ∈ rs, rGet r k = some u := by
  simp [fieldVals, List.mem_filterMap]

theorem merged_group_id_scalar {g : List Record} {mg : Record} {w : Value}
    (hsc : isScalarLike w = true)
    (hn : ∀ r ∈ g, nodupKeys r)
    (hall : ∀ r ∈ g, rGet r "product_identifier" = some w)
    (hne : g ≠ [])
    (hm : merge_records g = .ok mg) :
    rGet mg "product_identifier" = some w := by
  obtain ⟨cur, hcur, hmap⟩ := merge_records_keyFold hn hm "product_identifier"
  have hlf : isListField g "product_identifier" = false := by
    by_contra hcon
    rw [Bool.not_eq_false] at hcon
    simp only [isListField, List.any_eq_true] at hcon
    obtain ⟨rec, hrec, kv, hkv, hprop⟩ := hcon
    obtain ⟨hkeq, hll⟩ := (Bool.and_eq_true _ _).mp hprop
    have hkeq2 : kv.1 = "product_identifier" := beq_iff_eq.mp hkeq
    have hru := mem_rGet_of_nodup (hn rec hrec) hkv
    rw [hkeq2] at hru
    rw [hall rec hrec] at hru
    have hw : kv.2 = w := by cases hru; rfl
    rw [hw] at hll
    cases w <;> simp [isScalarLike] at hsc <;> simp [isListLike] at hll
  have hvals : ∀ u ∈ fieldVals g "product_identifier", u = w := by
    intro u hu
    obtain ⟨r, hr, hg⟩ := mem_fieldVals.mp hu
    rw [hall r hr] at hg
    cases hg
    rfl
  have hvne : fieldVals g "product_identifier" ≠ [] := by
    cases g with
    | nil => exact absurd rfl hne
    | cons r rest =>
        exact List.ne_nil_of_mem (mem_fieldVals.mpr
          ⟨r, List.mem_cons_self _ _, hall r (List.mem_cons_self _ _)⟩)
  rw [hlf] at hcur
  rw [keyFold_const _ w hvals hvne hsc] at hcur
  have hc := except_ok_inj hcur
  subst hc
  rw [hmap]
  simp [hlf]

theorem merged_group_id_listlike {g : List Record} {mg : Record} {w : Value}
    (hll : isListLike w = true)
    (hn : ∀ r ∈ g, nodupKeys r)
    (hall : ∀ r ∈ g, rGet r "product_identifier" = some w)
    (hne : g ≠ [])
    (hm : merge_records g = .ok mg) :
    ∃ zz, rGet mg "product_identifier" = some (vList zz) := by
  obtain ⟨cur, hcur, hmap⟩ := merge_records_keyFold hn hm "product_identifier"
  have hwmem : w ∈ fieldVals g "product_identifier" := by
    cases g with
    | nil => exact absurd rfl hne
    | cons r rest =>
        exact mem_fieldVals.mpr
          ⟨r, List.mem_cons_self _ _, hall r (List.mem_cons_self _ _)⟩
  have hlf : isListField g "product_identifier" = true := by
    cases g with
    | nil => exact absurd rfl hne
    | cons r rest =>
        have hr := hall r (List.mem_cons_self _ _)
        have hmem := rGet_mem hr
        simp only [isListField, List.any_eq_true]
        exact ⟨r, List.mem_cons_self _ _, ("product_identifier", w), hmem,
          by simp [hll]⟩
  have hwskip : skipVal w = false := by
    cases w <;> first | rfl | simp [isListLike] at hll
  rw [hlf] at hcur
  rw [keyFold_list_none (fieldVals g "product_identifier")] at hcur
  have hallskip : (fieldVals g "product_identifier").all skipVal = false := by
    rw [List.all_eq_false]
    exact ⟨w, hwmem, by simp [hwskip]⟩
  rw [hallskip] at hcur
  simp only [Bool.false_eq_true, if_false] at hcur
  have hc := except_ok_inj hcur
  subst hc
  refine ⟨dedupByStr ((List.filter (fun v => !skipVal v)
    (fieldVals g "product_identifier")).flatMap pyItems), ?_⟩
  rw [hmap]
  simp [hlf, dedupField]

theorem merged_noid_absent {c : List Record} {mg : Record}
    (hn : ∀ r ∈ c, nodupKeys r)
    (hall : ∀ r ∈ c, ∃ na, rGet r "product_identifier" = some na
      ∧ skipVal na = true)
    (hm : merge_records c = .ok mg) :
    rGet mg "product_identifier" = none := by
  obtain ⟨cur, hcur, hmap⟩ := merge_records_keyFold hn hm "product_identifier"
  have hsome := keyFold_isSome (fieldVals c "product_identifier") none cur hcur
  have hany : (fieldVals c "product_identifier").any
      (fun v => !skipVal v) = false := by
    rw [List.any_eq_false]
    intro u hu
    obtain ⟨r, hr, hg⟩ := mem_fieldVals.mp hu
    obtain ⟨na, hna, hskip⟩ := hall r hr
    rw [hna] at hg
    have : u = na := by cases hg; rfl
    simp [this, hskip]
  rw [hany] at hsome
  simp only [Option.isSome_none, Bool.false_or] at hsome
  cases cur with
  | none => exact hmap
  | some w => simp at hsome

theorem recId_some {r : Record} {w : Value} (h : recId r = w) (hw : w ≠ vNone) :
    rGet r "product_identifier" = some w := by
  unfold recId at h
  cases hg : rGet r "product_identifier" with
  | none => rw [hg] at h; simp at h; exact absurd h.symm hw
  | some u => rw [hg] at h; simp at h; rw [h]

theorem forall₂_map_left {α β γ : Type} {R : β → γ → Prop} (f : α → β) :
    ∀ {l : List α} {l' : List γ}, List.Forall₂ R (l.map f) l' →
      List.Forall₂ (fun a c => R (f a) c) l l' := by
  intro l
  induction l with
  | nil =>
      intro l' h
      cases l' with
      | nil => constructor
      | cons c cs => rw [List.map_nil] at h; cases h
  | cons a as ih =>
      intro l' h
      cases l' with
      | nil => rw [List.map_cons] at h; cases h
      | cons c cs =>
          rw [List.map_cons] at h
          cases h with
          | cons hr ht => exact List.Forall₂.cons hr (ih ht)

theorem nodup_filter_eq_length_one {l : List Value} {v : Value}
    (hnd : l.Nodup) (hm : v ∈ l) :
    (l.filter (fun w => decide (w = v))).length = 1 := by
  induction l with
  | nil => simp at hm
  | cons w rest ih =>
      rw [List.nodup_cons] at hnd
      by_cases hw : w = v
      · subst hw
        rw [List.filter_cons_of_pos (by simp)]
        have hrest : rest.filter (fun w2 => decide (w2 = w)) = [] := by
          rw [List.filter_eq_nil_iff]
          intro u hu
          simp only [decide_eq_true_eq]
          intro he
          exact hnd.1 (he ▸ hu)
        simp [hrest]
      · rw [List.filter_cons_of_neg (by simp [hw])]
        cases List.mem_cons.mp hm with
        | inl he => exact absurd he.symm hw
        | inr hm2 => exact ih hnd.2 hm2


/-- C4, amended: within a single chunk, two records with equal, non-null
normalized identifiers are always merged into one output record, regardless
of their name fields.  Stated for scalar identifiers: exactly one output
record carries that identifier — the exact-merge stage emits one merged
record per distinct identifier, and the fuzzy stage only ever emits records
whose identifier field is absent.  (Across chunks the result sets are
merely concatenated, so the invariant does not extend over chunk
boundaries.) -/
theorem C4_amended_thm (sim : String → String → ℚ) (t : Int)
    (chunk res : List Record) (v : Value) (r1 r2 : Record)
    (hn : ∀ r ∈ chunk, nodupKeys r)
    (h : dedupe sim t [chunk] = .ok res)
    (hv : isScalarLike v = true)
    (h1 : r1 ∈ chunk) (h2 : r2 ∈ chunk)
    (hid1 : normalize_id ((rGet r1 "product_identifier").getD vNaN) = .ok v)
    (hid2 : normalize_id ((rGet r2 "product_identifier").getD vNaN) = .ok v) :
    outCountId res v = 1 := by
  simp only [dedupe] at h
  obtain ⟨parts, hparts, h⟩ := except_bind_ok h
  rw [List.mapM_cons, List.mapM_nil] at hparts
  obtain ⟨p, hp, hparts⟩ := except_bind_ok hparts
  simp only [pure_ok, ok_bind] at hparts
  cases hparts
  simp only [pure_ok] at h
  cases h
  rw [show ([p] : List (List Record)).flatten = p from by simp]
  simp only [processChunk] at hp
  obtain ⟨ndf, hndf, hp⟩ := except_bind_ok hp
  obtain ⟨ex, hexact, hp⟩ := except_bind_ok hp
  obtain ⟨ks, hks, hp⟩ := except_bind_ok hp
  obtain ⟨fuzzy, hfuzzy, hp⟩ := except_bind_ok hp
  simp only [pure_ok] at hp
  cases hp
  -- facts about the normalized chunk
  have hfa := mapM_ok_forall₂ hndf
  have hnd2 : ∀ r2 ∈ ndf, nodupKeys r2 := by
    intro r2 hr2
    obtain ⟨r, hr, hnr⟩ := forall₂_mem_right hfa hr2
    obtain ⟨nid, hni, heq⟩ := normRec_inv hnr
    rw [heq]
    exact nodupKeys_rSet (hn r hr)
  have hpidnd : ∀ r2 ∈ ndf, rGet r2 "product_identifier" = some (recId r2) := by
    intro r2 hr2
    obtain ⟨r, hr, hnr⟩ := forall₂_mem_right hfa hr2
    obtain ⟨nid, hni, heq⟩ := normRec_inv hnr
    rw [heq]
    simp [recId, rGet_rSet_self]
  -- the normalized form of r1 is in has_id with identifier v
  obtain ⟨r1n, hr1n, hnr1⟩ := forall₂_mem_left hfa h1
  obtain ⟨nid1, hni1, heq1⟩ := normRec_inv hnr1
  rw [hid1] at hni1
  have hnid1v : v = nid1 := except_ok_inj hni1
  have hr1id : recId r1n = v := by
    rw [heq1, ← hnid1v]
    simp [recId, rGet_rSet_self]
  have hvna : isNaVal v = false := by
    cases v <;> first | rfl | simp [isScalarLike] at hv
  have hr1has : r1n ∈ ndf.filter (fun r => !isNaVal (recId r)) :=
    List.mem_filter.mpr ⟨hr1n, by rw [hr1id]; simp [hvna]⟩
  -- the exact-merge outputs contain exactly one record with identifier v
  have hfex0 := mapM_ok_forall₂ hexact
  simp only [idGroups] at hfex0
  have hfex := forall₂_map_left _ hfex0
  have hexlen : (ex.filter (fun mg =>
      decide ((rGet mg "product_identifier").getD vNone = v))).length
      = ((distinctIds (ndf.filter (fun r => !isNaVal (recId r)))).filter
          (fun w => decide (w = v))).length := by
    apply filter_length_of_forall₂ _ _ hfex
    intro w mg hwmem hR
    obtain ⟨rw0, hrw0, hrid⟩ :=
      (mem_distinctIds (ndf.filter (fun r => !isNaVal (recId r))) w).mp hwmem
    have hrw0f := List.mem_filter.mp hrw0
    have hwna : isNaVal w = false := by
      have h3 := hrw0f.2
      rw [hrid] at h3
      simpa using h3
    have hwnone : w ≠ vNone := by
      intro he
      rw [he] at hwna
      simp [isNaVal, skipVal] at hwna
    have hgmem : ∀ r ∈ (ndf.filter (fun r => !isNaVal (recId r))).filter
        (fun r => recId r == w), rGet r "product_identifier" = some w := by
      intro r hr
      have h3 := List.mem_filter.mp hr
      exact recId_some (beq_iff_eq.mp h3.2) hwnone
    have hgn : ∀ r ∈ (ndf.filter (fun r => !isNaVal (recId r))).filter
        (fun r => recId r == w), nodupKeys r := by
      intro r hr
      exact hnd2 r (List.mem_filter.mp (List.mem_filter.mp hr).1).1
    have hgne : (ndf.filter (fun r => !isNaVal (recId r))).filter
        (fun r => recId r == w) ≠ [] :=
      List.ne_nil_of_mem (List.mem_filter.mpr ⟨hrw0, beq_iff_eq.mpr hrid⟩)
    by_cases hws : isScalarLike w = true
    · have hmg := merged_group_id_scalar hws hgn hgmem hgne hR
      rw [hmg]
      simp only [Option.getD_some]
    · have hwll : isListLike w = true := by
        cases w with
        | vNone => exact absurd rfl hwnone
        | vNaN => simp [isNaVal, skipVal] at hwna
        | vInt n => exact absurd rfl hws
        | vStr s => exact absurd rfl hws
        | vList xs => rfl
        | vTuple xs => rfl
        | vArr xs => rfl
      obtain ⟨zz, hmg⟩ := merged_group_id_listlike hwll hgn hgmem hgne hR
      rw [hmg]
      simp only [Option.getD_some]
      have hq : (vList zz : Value) ≠ v := by
        intro he
        rw [← he] at hv
        simp [isScalarLike] at hv
      have hp2 : w ≠ v := by
        intro he
        rw [he] at hws
        exact hws hv
      rw [decide_eq_false hq, decide_eq_false hp2]
  rw [nodup_filter_eq_length_one
    (distinctIds_nodup (ndf.filter (fun r => !isNaVal (recId r))))
    ((mem_distinctIds (ndf.filter (fun r => !isNaVal (recId r))) v).mpr
      ⟨r1n, hr1has, hr1id⟩)] at hexlen
  -- the fuzzy outputs carry no identifier at all
  have hfz : ∀ mg ∈ fuzzy.flatten, rGet mg "product_identifier" = none := by
    intro mg hmg
    obtain ⟨out, hout, hmgo⟩ := List.mem_flatten.mp hmg
    have hff := mapM_ok_forall₂ hfuzzy
    obtain ⟨bucket, hbucket, hpb⟩ := forall₂_mem_right hff hout
    obtain ⟨k0, hk0, hbk⟩ := List.mem_map.mp hbucket
    simp only [process_block] at hpb
    obtain ⟨cs, hcs, hpb⟩ := except_bind_ok hpb
    obtain ⟨c, hc, hmerge⟩ := forall₂_mem_right (mapM_ok_forall₂ hpb) hmgo
    obtain ⟨hperm, hne2⟩ := processClusters_spec bucket.length bucket cs
      le_rfl hcs
    have hcmem : ∀ r ∈ c, r ∈ bucket := by
      intro r hr
      exact hperm.mem_iff.mp (List.mem_flatten.mpr ⟨c, hc, hr⟩)
    refine merged_noid_absent ?_ ?_ hmerge
    · intro r hr
      have hrb := hcmem r hr
      rw [← hbk] at hrb
      exact hnd2 r (List.mem_filter.mp (List.mem_filter.mp hrb).1).1
    · intro r hr
      have hrb := hcmem r hr
      rw [← hbk] at hrb
      have hrno := List.mem_filter.mp (List.mem_filter.mp hrb).1
      exact ⟨recId r, hpidnd r hrno.1, by
        have h4 := hrno.2
        simpa [isNaVal] using h4⟩
  have hfz0 : (fuzzy.flatten.filter (fun mg =>
      decide ((rGet mg "product_identifier").getD vNone = v))).length = 0 := by
    rw [List.length_eq_zero, List.filter_eq_nil_iff]
    intro mg hmg
    rw [hfz mg hmg]
    simp only [Option.getD_none, decide_eq_true_eq]
    intro he
    rw [← he] at hv
    simp [isScalarLike] at hv
  unfold outCountId
  rw [List.filter_append, List.length_append, hexlen, hfz0]

/-- C4, counterexample: two records with the equal, non-null normalized
identifier `5`, split into two chunks, are not merged — the driver
concatenates per-chunk results, so the output holds two records with that
identifier. -/
theorem C4_counterexample :
    normalize_id (vInt 5) = .ok (vInt 5)
    ∧ vInt 5 ≠ vNone
    ∧ dedupe simZero 90
        [[[("product_identifier", vInt 5)]], [[("product_identifier", vInt 5)]]]
      = .ok [[("product_identifier", vInt 5)], [("product_identifier", vInt 5)]]
    ∧ outCountId [[("product_identifier", vInt 5)],
        [("product_identifier", vInt 5)]] (vInt 5) = 2 :=
  ⟨rfl, by decide, rfl, rfl⟩

/-- C4, witness: the amended theorem applied to a single chunk holding two
records with identifier `5`. -/
theorem C4_witness :
    outCountId [[("product_identifier", vInt 5), ("a", vInt 1), ("b", vInt 2)]]
      (vInt 5) = 1 :=
  C4_amended_thm simZero 90
    [[("product_identifier", vInt 5), ("a", vInt 1)],
     [("product_identifier", vInt 5), ("b", vInt 2)]]
    [[("product_identifier", vInt 5), ("a", vInt 1), ("b", vInt 2)]]
    (vInt 5)
    [("product_identifier", vInt 5), ("a", vInt 1)]
    [("product_identifier", vInt 5), ("b", vInt 2)]
    (by decide) rfl rfl (by decide) (by decide) rfl rfl
